import Mathlib

/-!
# Verification of the Limitless lifelog export scripts

Shallow embedding of the three generations of the export script found in the
repository (`src/export.js` holding a plain JSON exporter and a zod/sync-state
JSON exporter, `src/unnamed/part_002` holding the markdown exporter with
full-sync and cursor modes), together with proofs and refutations of the
frozen claims about the merge algebra, the retry logic and the sync loops.

Modelling conventions:
* `startTime`/`endTime` are ISO-8601 strings in the source; JavaScript compares
  them via `new Date(...)`, i.e. as millisecond timestamps, so they are
  modelled as `Int` epoch milliseconds.  `toISOString().split("T")[0]`
  (calendar-date bucketing) is modelled as the UTC day index
  `t.fdiv 86400000`; lexicographic comparison of `YYYY-MM-DD` strings agrees
  with numeric comparison of day indices.
* `Array.prototype.sort` is stable (ECMAScript 2019), so the source's
  `mergedData.sort((a, b) => new Date(a.startTime) - new Date(b.startTime))`
  is modelled by `List.insertionSort`, which is a stable sort.
* `new Map(list.map(item => [item.id, item]))` keeps, for every key, the
  position of its first insertion and the value of its last insertion; this is
  modelled faithfully by `jsMapSet`/`dedupById` below.
-/

namespace Limitless

/-- `LifelogContentSchema.type`: closed tag set of content items. -/
inductive ContentType where
  | heading1 | heading2 | heading3 | blockquote | text
deriving DecidableEq, Repr

/-- One content line/block of a lifelog (`LifelogContentSchema`). -/
structure ContentItem where
  type : ContentType
  content : String
  startTime : Option String
  speakerName : Option String
deriving DecidableEq, Repr

/-- One lifelog record (`LifelogSchema`).  `startTime`/`endTime` are modelled
as parsed epoch-millisecond timestamps (see module docstring). -/
structure Lifelog where
  id : String
  startTime : Int
  endTime : Int
  contents : Option (List ContentItem)
deriving DecidableEq, Repr, Inhabited

/-- Milliseconds per UTC calendar day. -/
def msPerDay : Int := 86400000

/-- Calendar-date bucketing key: `new Date(t).toISOString().split("T")[0]`,
modelled as the UTC day index of the timestamp. -/
def dayOf (t : Int) : Int := t.fdiv msPerDay

/-! ## Key-ordered stable sorting, generically over a key function

The merge sorts records by `startTime`; the proofs also sort id-lists by the
key their records share.  Both are instances of sorting by an `Int`-valued
key, so the toolkit is stated generically. -/

section KeySort

variable {α : Type} (key : α → Int)

/-- The comparator `(a, b) => key a - key b`: at-most ordering on keys. -/
def kle (a b : α) : Prop := key a ≤ key b

instance : DecidableRel (kle key) := fun a b => inferInstanceAs (Decidable (key a ≤ key b))

/-- Stable sort by key (models JavaScript `Array.prototype.sort` with a
numeric key comparator). -/
def ksort (l : List α) : List α := l.insertionSort (kle key)

theorem kle_total (a b : α) : kle key a b ∨ kle key b a := Int.le_total _ _

theorem kle_trans {a b c : α} (h₁ : kle key a b) (h₂ : kle key b c) : kle key a c :=
  Int.le_trans h₁ h₂

instance : IsTotal α (kle key) := ⟨kle_total key⟩
instance : IsTrans α (kle key) := ⟨fun _ _ _ => kle_trans key⟩

theorem ksort_sorted (l : List α) : List.Sorted (kle key) (ksort key l) :=
  List.sorted_insertionSort _ l

theorem ksort_of_sorted {l : List α} (h : List.Sorted (kle key) l) : ksort key l = l :=
  h.insertionSort_eq

/-- Sorting a list whose keys are all equal does nothing. -/
theorem ksort_of_const {l : List α} {c : Int} (h : ∀ z ∈ l, key z = c) :
    ksort key l = l := by
  refine ksort_of_sorted key (List.pairwise_iff_forall_sublist.2 ?_)
  intro a b hab
  have ha := hab.subset (List.mem_cons_self a [b])
  have hb := hab.subset (List.mem_cons_of_mem a (List.mem_cons_self b []))
  simp only [kle, h a ha, h b hb, le_refl]

/-- Inserting an element below everything in the list puts it in front. -/
theorem orderedInsert_eq_cons {x : α} {N : List α} (h : ∀ z ∈ N, kle key x z) :
    N.orderedInsert (kle key) x = x :: N := by
  cases N with
  | nil => rfl
  | cons z N' => exact if_pos (h z (List.mem_cons_self z N'))

/-- Stability: filtering commutes with ordered insertion into a sorted list. -/
theorem filter_orderedInsert {x : α} {M : List α} (p : α → Bool)
    (hM : List.Sorted (kle key) M) :
    (M.orderedInsert (kle key) x).filter p =
      if p x then (M.filter p).orderedInsert (kle key) x else M.filter p := by
  induction M with
  | nil =>
    simp only [List.orderedInsert, List.filter]
    cases hpx : p x <;> simp [hpx]
  | cons z M' ih =>
    have hz : ∀ w ∈ M', kle key z w := List.rel_of_sorted_cons hM
    by_cases hxz : kle key x z
    · rw [List.orderedInsert_of_le _ _ hxz]
      by_cases hpx : p x = true
      · rw [if_pos hpx, List.filter_cons_of_pos hpx]
        refine (orderedInsert_eq_cons key fun w hw => ?_).symm
        have hw' := (List.mem_filter.1 hw).1
        rcases List.mem_cons.1 hw' with h | h
        · exact h ▸ hxz
        · exact kle_trans key hxz (hz w h)
      · rw [if_neg hpx, List.filter_cons_of_neg (by simpa using hpx)]
    · have hins : (z :: M').orderedInsert (kle key) x = z :: M'.orderedInsert (kle key) x := by
        simp [List.orderedInsert, hxz]
      rw [hins]
      have ih' := ih hM.of_cons
      by_cases hpz : p z = true
      · rw [List.filter_cons_of_pos hpz, List.filter_cons_of_pos hpz, ih']
        by_cases hpx : p x = true
        · rw [if_pos hpx, if_pos hpx]
          simp [List.orderedInsert, hxz]
        · rw [if_neg hpx, if_neg hpx]
      · rw [List.filter_cons_of_neg (by simpa using hpz),
          List.filter_cons_of_neg (by simpa using hpz), ih']

/-- A stable sort commutes with any filter. -/
theorem ksort_filter (p : α → Bool) (L : List α) :
    (ksort key L).filter p = ksort key (L.filter p) := by
  induction L with
  | nil => rfl
  | cons x L' ih =>
    have hstep : ksort key (x :: L') = (ksort key L').orderedInsert (kle key) x := rfl
    rw [hstep, filter_orderedInsert key p (ksort_sorted key L')]
    by_cases hpx : p x = true
    · rw [if_pos hpx, ih, List.filter_cons_of_pos hpx]
      rfl
    · rw [if_neg hpx, ih, List.filter_cons_of_neg (by simpa using hpx)]

/-- Two key-sorted lists whose per-key filtered subsequences agree are equal
(uniqueness of stable sorting). -/
theorem sorted_eq_of_classes :
    ∀ (n : Nat) (U V : List α), U.length ≤ n →
    List.Sorted (kle key) U → List.Sorted (kle key) V →
    (∀ c : Int, U.filter (fun z => key z = c) = V.filter (fun z => key z = c)) →
    U = V := by
  intro n
  induction n with
  | zero =>
    intro U V hlen _ _ hcls
    have hU : U = [] := List.length_eq_zero.1 (Nat.le_zero.1 hlen)
    subst hU
    cases V with
    | nil => rfl
    | cons v V' =>
      have := hcls (key v)
      simp at this
  | succ n ih =>
    intro U V hlen hU hV hcls
    cases U with
    | nil =>
      cases V with
      | nil => rfl
      | cons v V' =>
        have := hcls (key v)
        simp at this
    | cons u U' =>
      cases V with
      | nil =>
        have := hcls (key u)
        simp at this
      | cons v V' =>
        have hkv : key v = key u := by
          by_contra hne
          -- u's class: u survives on the left, so u ∈ V'.
          have h1 := hcls (key u)
          have hu_mem : u ∈ (v :: V').filter (fun z => key z = key u) := by
            rw [← h1]
            simp
          have hu_mem' : u ∈ v :: V' := (List.mem_filter.1 hu_mem).1
          have huV' : u ∈ V' := by
            rcases List.mem_cons.1 hu_mem' with h | h
            · exact absurd (congrArg key h).symm hne
            · exact h
          have hvu : key v ≤ key u := List.rel_of_sorted_cons hV u huV'
          -- v's class: v survives on the right, so v ∈ U'.
          have h2 := hcls (key v)
          have hv_mem : v ∈ (u :: U').filter (fun z => key z = key v) := by
            rw [h2]
            simp
          have hv_mem' : v ∈ u :: U' := (List.mem_filter.1 hv_mem).1
          have hvU' : v ∈ U' := by
            rcases List.mem_cons.1 hv_mem' with h | h
            · exact absurd (congrArg key h) hne
            · exact h
          have huv : key u ≤ key v := List.rel_of_sorted_cons hU v hvU'
          exact hne (Int.le_antisymm hvu huv)
        have hc := hcls (key u)
        rw [List.filter_cons_of_pos (by simp), List.filter_cons_of_pos (by simp [hkv])] at hc
        injection hc with huv htails
        subst huv
        have hUV : U' = V' := by
          refine ih U' V' (Nat.le_of_succ_le_succ hlen) hU.of_cons hV.of_cons ?_
          intro c
          by_cases hcu : c = key u
          · rw [hcu]; exact htails
          · have h3 := hcls c
            rw [List.filter_cons_of_neg (by simp [Ne.symm hcu]),
              List.filter_cons_of_neg (by simp [hkv, Ne.symm hcu])] at h3
            exact h3
        rw [hUV]

/-- Stable sorts of two lists with identical per-key subsequences agree. -/
theorem ksort_eq_of_classes {U V : List α}
    (hcls : ∀ c : Int, U.filter (fun z => key z = c) = V.filter (fun z => key z = c)) :
    ksort key U = ksort key V := by
  refine sorted_eq_of_classes key (ksort key U).length _ _ le_rfl
    (ksort_sorted key U) (ksort_sorted key V) ?_
  intro c
  have hu : (ksort key U).filter (fun z => key z = c) = U.filter (fun z => key z = c) := by
    rw [ksort_filter]
    exact ksort_of_const key (fun z hz => by
      have := (List.mem_filter.1 hz).2
      simpa using this)
  have hv : (ksort key V).filter (fun z => key z = c) = V.filter (fun z => key z = c) := by
    rw [ksort_filter]
    exact ksort_of_const key (fun z hz => by
      have := (List.mem_filter.1 hz).2
      simpa using this)
  rw [hu, hv, hcls c]

end KeySort

/-! ## First-occurrence deduplication

The key order of a JavaScript `Map` built by repeated `set` calls is the order
of first insertion of each key. -/

section FirstDedup

variable {α : Type} [DecidableEq α]

/-- Keep the first occurrence of every element, dropping later duplicates. -/
def firstDedup : List α → List α
  | [] => []
  | x :: xs => x :: firstDedup (xs.filter (fun y => y ≠ x))
termination_by l => l.length
decreasing_by
  simp_wf
  exact Nat.lt_succ_of_le (List.length_filter_le _ _)

@[simp]
theorem firstDedup_nil : firstDedup ([] : List α) = [] := by rw [firstDedup]

theorem firstDedup_cons (x : α) (xs : List α) :
    firstDedup (x :: xs) = x :: firstDedup (xs.filter (fun y => y ≠ x)) := by
  rw [firstDedup]

/-- Filters commute. -/
theorem filter_swap (p q : α → Bool) (l : List α) :
    (l.filter p).filter q = (l.filter q).filter p := by
  simp only [List.filter_filter]
  induction l with
  | nil => rfl
  | cons x xs ih =>
    simp only [List.filter_cons, Bool.and_comm, ih]

theorem mem_firstDedup {a : α} : ∀ (n : Nat) (I : List α), I.length ≤ n →
    (a ∈ firstDedup I ↔ a ∈ I) := by
  intro n
  induction n with
  | zero =>
    intro I hlen
    rw [List.length_eq_zero.1 (Nat.le_zero.1 hlen)]
    simp
  | succ n ih =>
    intro I hlen
    cases I with
    | nil => simp
    | cons x xs =>
      rw [firstDedup_cons]
      constructor
      · intro h
        rcases List.mem_cons.1 h with h | h
        · exact h ▸ List.mem_cons_self x xs
        · have := (ih _ (le_trans (List.length_filter_le _ _)
            (Nat.le_of_succ_le_succ hlen))).1 h
          exact List.mem_cons_of_mem x (List.mem_filter.1 this).1
      · intro h
        rcases List.mem_cons.1 h with h | h
        · exact h ▸ List.mem_cons_self _ _
        · by_cases hax : a = x
          · exact hax ▸ List.mem_cons_self _ _
          · refine List.mem_cons_of_mem x ?_
            refine (ih _ (le_trans (List.length_filter_le _ _)
              (Nat.le_of_succ_le_succ hlen))).2 ?_
            exact List.mem_filter.2 ⟨h, by simpa using hax⟩

theorem firstDedup_sublist : ∀ (n : Nat) (I : List α), I.length ≤ n →
    List.Sublist (firstDedup I) I := by
  intro n
  induction n with
  | zero =>
    intro I hlen
    rw [List.length_eq_zero.1 (Nat.le_zero.1 hlen)]
    simp
  | succ n ih =>
    intro I hlen
    cases I with
    | nil => simp
    | cons x xs =>
      rw [firstDedup_cons]
      refine List.Sublist.cons₂ x ?_
      exact List.Sublist.trans
        (ih _ (le_trans (List.length_filter_le _ _) (Nat.le_of_succ_le_succ hlen)))
        (List.filter_sublist xs)

theorem firstDedup_nodup : ∀ (n : Nat) (I : List α), I.length ≤ n →
    (firstDedup I).Nodup := by
  intro n
  induction n with
  | zero =>
    intro I hlen
    rw [List.length_eq_zero.1 (Nat.le_zero.1 hlen), firstDedup_nil]
    exact List.nodup_nil
  | succ n ih =>
    intro I hlen
    cases I with
    | nil => rw [firstDedup_nil]; exact List.nodup_nil
    | cons x xs =>
      rw [firstDedup_cons]
      have hlen' : (xs.filter (fun y => y ≠ x)).length ≤ n :=
        le_trans (List.length_filter_le _ _) (Nat.le_of_succ_le_succ hlen)
      refine List.Nodup.cons ?_ (ih _ hlen')
      intro hx
      have hmem := (mem_firstDedup _ _ (le_refl _)).1 hx
      have := (List.mem_filter.1 hmem).2
      simp at this

/-- First-occurrence dedup commutes with any filter. -/
theorem firstDedup_filter (p : α → Bool) : ∀ (n : Nat) (I : List α), I.length ≤ n →
    (firstDedup I).filter p = firstDedup (I.filter p) := by
  intro n
  induction n with
  | zero =>
    intro I hlen
    rw [List.length_eq_zero.1 (Nat.le_zero.1 hlen)]
    simp
  | succ n ih =>
    intro I hlen
    cases I with
    | nil => simp
    | cons x xs =>
      have hlen' : (xs.filter (fun y => y ≠ x)).length ≤ n :=
        le_trans (List.length_filter_le _ _) (Nat.le_of_succ_le_succ hlen)
      rw [firstDedup_cons]
      by_cases hpx : p x = true
      · rw [List.filter_cons_of_pos hpx, ih _ hlen', filter_swap,
          List.filter_cons_of_pos hpx, firstDedup_cons]
      · rw [List.filter_cons_of_neg (by simpa using hpx), ih _ hlen', filter_swap,
          List.filter_cons_of_neg (by simpa using hpx)]
        congr 1
        refine List.filter_eq_self.2 ?_
        intro a ha
        have hap := (List.mem_filter.1 ha).2
        simp only [decide_eq_true_eq]
        intro hax
        rw [hax] at hap
        exact hpx hap

/-- Deduplicating a prefix first does not change a later dedup of the whole. -/
theorem firstDedup_append_left : ∀ (n : Nat) (I J : List α), I.length ≤ n →
    firstDedup (firstDedup I ++ J) = firstDedup (I ++ J) := by
  intro n
  induction n with
  | zero =>
    intro I J hlen
    rw [List.length_eq_zero.1 (Nat.le_zero.1 hlen)]
    simp
  | succ n ih =>
    intro I J hlen
    cases I with
    | nil => simp
    | cons x xs =>
      have hlen' : (xs.filter (fun y => y ≠ x)).length ≤ n :=
        le_trans (List.length_filter_le _ _) (Nat.le_of_succ_le_succ hlen)
      have hidem : (xs.filter (fun y => y ≠ x)).filter (fun y => y ≠ x)
          = xs.filter (fun y => y ≠ x) :=
        List.filter_eq_self.2 (fun a ha => (List.mem_filter.1 ha).2)
      calc firstDedup (firstDedup (x :: xs) ++ J)
          = firstDedup (x :: (firstDedup (xs.filter (fun y => y ≠ x)) ++ J)) := by
            rw [firstDedup_cons, List.cons_append]
        _ = x :: firstDedup ((firstDedup (xs.filter (fun y => y ≠ x)) ++ J).filter
              (fun y => y ≠ x)) := by
            rw [firstDedup_cons]
        _ = x :: firstDedup (firstDedup (xs.filter (fun y => y ≠ x))
              ++ J.filter (fun y => y ≠ x)) := by
            rw [List.filter_append, firstDedup_filter _ _ _ (le_refl _), hidem]
        _ = x :: firstDedup (xs.filter (fun y => y ≠ x) ++ J.filter (fun y => y ≠ x)) := by
            rw [ih _ _ hlen']
        _ = x :: firstDedup ((xs ++ J).filter (fun y => y ≠ x)) := by
            rw [List.filter_append]
        _ = firstDedup ((x :: xs) ++ J) := by
            rw [List.cons_append, firstDedup_cons]

/-- Appending already-seen elements does not change a first-occurrence dedup. -/
theorem firstDedup_append_subset : ∀ (n : Nat) (W J : List α), W.length ≤ n →
    (∀ j ∈ J, j ∈ W) → firstDedup (W ++ J) = firstDedup W := by
  intro n
  induction n with
  | zero =>
    intro W J hlen hJ
    rw [List.length_eq_zero.1 (Nat.le_zero.1 hlen)] at hJ ⊢
    have : J = [] := List.eq_nil_iff_forall_not_mem.2 (fun a ha => by
      simpa using hJ a ha)
    rw [this]
    rfl
  | succ n ih =>
    intro W J hlen hJ
    cases W with
    | nil =>
      have : J = [] := List.eq_nil_iff_forall_not_mem.2 (fun a ha => by
        simpa using hJ a ha)
      rw [this]
      simp
    | cons w W' =>
      have hlen' : (W'.filter (fun y => y ≠ w)).length ≤ n :=
        le_trans (List.length_filter_le _ _) (Nat.le_of_succ_le_succ hlen)
      rw [List.cons_append, firstDedup_cons, firstDedup_cons, List.filter_append]
      congr 1
      refine ih _ _ hlen' ?_
      intro j hj
      have hjJ := (List.mem_filter.1 hj).1
      have hjw := (List.mem_filter.1 hj).2
      have hjW : j ∈ w :: W' := hJ j hjJ
      rcases List.mem_cons.1 hjW with h | h
      · simp [h] at hjw
      · exact List.mem_filter.2 ⟨h, hjw⟩

/-- First-occurrence dedup commutes with ordered insertion into a sorted list
(the inserted element goes in front of its own later duplicates). -/
theorem firstDedup_orderedInsert (key : α → Int) :
    ∀ (n : Nat) (M : List α), M.length ≤ n → List.Sorted (kle key) M → ∀ x : α,
    firstDedup (M.orderedInsert (kle key) x) =
      (firstDedup (M.filter (fun y => y ≠ x))).orderedInsert (kle key) x := by
  intro n
  induction n with
  | zero =>
    intro M hlen _ x
    rw [List.length_eq_zero.1 (Nat.le_zero.1 hlen)]
    rw [List.orderedInsert_nil, firstDedup_cons]
    simp
  | succ n ih =>
    intro M hlen hM x
    cases M with
    | nil =>
      rw [List.orderedInsert_nil, firstDedup_cons]
      simp
    | cons y M' =>
      by_cases hxy : kle key x y
      · rw [List.orderedInsert_of_le _ _ hxy, firstDedup_cons]
        refine (orderedInsert_eq_cons key fun z hz => ?_).symm
        have hz1 : z ∈ (y :: M').filter (fun y' => y' ≠ x) :=
          (mem_firstDedup _ _ (le_refl _)).1 hz
        have hz2 : z ∈ y :: M' := (List.mem_filter.1 hz1).1
        rcases List.mem_cons.1 hz2 with h | h
        · exact h ▸ hxy
        · exact kle_trans key hxy (List.rel_of_sorted_cons hM z h)
      · have hyx : y ≠ x := by
          intro h
          exact hxy (h ▸ le_refl _)
        have hins : (y :: M').orderedInsert (kle key) x
            = y :: M'.orderedInsert (kle key) x := by
          simp [List.orderedInsert, hxy]
        rw [hins, firstDedup_cons]
        have hfo : (M'.orderedInsert (kle key) x).filter (fun z => z ≠ y)
            = (M'.filter (fun z => z ≠ y)).orderedInsert (kle key) x := by
          have := @filter_orderedInsert _ key x M' (fun z => z ≠ y) hM.of_cons
          rw [this, if_pos (by simpa using Ne.symm hyx)]
        rw [hfo]
        have hsorted' : List.Sorted (kle key) (M'.filter (fun z => z ≠ y)) :=
          hM.of_cons.sublist (List.filter_sublist _)
        have hlen' : (M'.filter (fun z => z ≠ y)).length ≤ n :=
          le_trans (List.length_filter_le _ _) (Nat.le_of_succ_le_succ hlen)
        rw [ih _ hlen' hsorted' x]
        have hcons : ((y :: M').filter (fun y' => y' ≠ x))
            = y :: M'.filter (fun y' => y' ≠ x) :=
          List.filter_cons_of_pos (by simpa using hyx)
        rw [hcons, firstDedup_cons]
        have : (y :: firstDedup ((M'.filter (fun y' => y' ≠ x)).filter
            (fun z => z ≠ y))).orderedInsert (kle key) x
            = y :: (firstDedup ((M'.filter (fun y' => y' ≠ x)).filter
              (fun z => z ≠ y))).orderedInsert (kle key) x := by
          simp [List.orderedInsert, hxy]
        rw [this, filter_swap]

/-- First-occurrence dedup commutes with stable sorting. -/
theorem firstDedup_ksort (key : α → Int) : ∀ (n : Nat) (I : List α), I.length ≤ n →
    firstDedup (ksort key I) = ksort key (firstDedup I) := by
  intro n
  induction n with
  | zero =>
    intro I hlen
    rw [List.length_eq_zero.1 (Nat.le_zero.1 hlen)]
    simp [ksort]
  | succ n ih =>
    intro I hlen
    cases I with
    | nil => simp [ksort]
    | cons x xs =>
      have hstep : ksort key (x :: xs) = (ksort key xs).orderedInsert (kle key) x := rfl
      rw [hstep,
        firstDedup_orderedInsert key _ _ (le_refl _) (ksort_sorted key xs) x,
        ksort_filter, ih _ (le_trans (List.length_filter_le _ _)
          (Nat.le_of_succ_le_succ hlen)), firstDedup_cons]
      rfl

end FirstDedup

/-! ## The structured-mode merge (`appendToFile`, src/export.js lines 29–57)

```js
const mergedData = [...existingData, ...newLifelogs];
mergedData.sort((a, b) => new Date(a.startTime) - new Date(b.startTime));
const uniqueData = Array.from(new Map(mergedData.map((item) => [item.id, item])).values());
await fs.writeFile(filePath, JSON.stringify(uniqueData, null, 2));
```
-/

/-- `Map.prototype.set` on an insertion-ordered association list: an existing
key keeps its position but receives the new value; a new key is appended. -/
def jsMapSet (m : List (String × Lifelog)) (x : Lifelog) : List (String × Lifelog) :=
  match m with
  | [] => [(x.id, x)]
  | (k, v) :: rest => if k = x.id then (k, x) :: rest else (k, v) :: jsMapSet rest x

/-- `Array.from(new Map(l.map(item => [item.id, item])).values())`. -/
def dedupById (l : List Lifelog) : List Lifelog :=
  (l.foldl jsMapSet []).map Prod.snd

/-- Sort by `startTime` (stable). -/
def sortByStartTime (l : List Lifelog) : List Lifelog := ksort Lifelog.startTime l

/-- The merge performed by `appendToFile` on the parsed file contents:
concatenate existing data with the new batch, stable-sort by `startTime`,
deduplicate by `id` (first-seen position, last-seen value), and the result is
written back in full. -/
def appendToFile (existingData newLifelogs : List Lifelog) : List Lifelog :=
  dedupById (sortByStartTime (existingData ++ newLifelogs))

/-- The merge as a function of the concatenated input. -/
def mergeAll (L : List Lifelog) : List Lifelog := dedupById (sortByStartTime L)

theorem appendToFile_eq_mergeAll (e n : List Lifelog) :
    appendToFile e n = mergeAll (e ++ n) := rfl

/-! ## Last-occurrence lookup and the `Map`-dedup characterization -/

/-- The last element of the list with the given id — the value a JS `Map`
holds for a key after setting every list element under its id. -/
def lastWithId (k : String) : List Lifelog → Option Lifelog
  | [] => none
  | x :: xs =>
    match lastWithId k xs with
    | some y => some y
    | none => if x.id = k then some x else none

theorem lastWithId_cons_of_some {k : String} {x y : Lifelog} {xs : List Lifelog}
    (h : lastWithId k xs = some y) : lastWithId k (x :: xs) = some y := by
  simp [lastWithId, h]

theorem lastWithId_cons_of_none {k : String} {x : Lifelog} {xs : List Lifelog}
    (h : lastWithId k xs = none) :
    lastWithId k (x :: xs) = if x.id = k then some x else none := by
  simp [lastWithId, h]

theorem lastWithId_cons_ne {k : String} {x : Lifelog} {xs : List Lifelog}
    (h : ¬ x.id = k) : lastWithId k (x :: xs) = lastWithId k xs := by
  cases hx : lastWithId k xs with
  | some y => exact lastWithId_cons_of_some hx
  | none => rw [lastWithId_cons_of_none hx, if_neg h]

theorem lastWithId_append_of_some {k : String} {y : Lifelog} {B : List Lifelog}
    (A : List Lifelog) (h : lastWithId k B = some y) :
    lastWithId k (A ++ B) = some y := by
  induction A with
  | nil => simpa using h
  | cons x A' ih => exact lastWithId_cons_of_some ih

theorem lastWithId_append_of_none {k : String} {B : List Lifelog}
    (A : List Lifelog) (h : lastWithId k B = none) :
    lastWithId k (A ++ B) = lastWithId k A := by
  induction A with
  | nil => simpa using h
  | cons x A' ih =>
    cases hx : lastWithId k A' with
    | some y =>
      rw [lastWithId_cons_of_some hx]
      rw [List.cons_append]
      exact lastWithId_cons_of_some (hx ▸ ih)
    | none =>
      rw [List.cons_append, lastWithId_cons_of_none (hx ▸ ih), lastWithId_cons_of_none hx]

theorem lastWithId_mem {k : String} {y : Lifelog} :
    ∀ {L : List Lifelog}, lastWithId k L = some y → y ∈ L := by
  intro L
  induction L with
  | nil => intro h; simp [lastWithId] at h
  | cons x xs ih =>
    intro h
    cases hx : lastWithId k xs with
    | some z =>
      rw [lastWithId_cons_of_some hx] at h
      exact List.mem_cons_of_mem x (ih (hx.trans (congrArg some (Option.some.inj h))))
    | none =>
      rw [lastWithId_cons_of_none hx] at h
      by_cases hid : x.id = k
      · rw [if_pos hid] at h
        exact (Option.some.inj h) ▸ List.mem_cons_self x xs
      · rw [if_neg hid] at h
        exact absurd h (Option.noConfusion)

theorem lastWithId_id {k : String} {y : Lifelog} :
    ∀ {L : List Lifelog}, lastWithId k L = some y → y.id = k := by
  intro L
  induction L with
  | nil => intro h; simp [lastWithId] at h
  | cons x xs ih =>
    intro h
    cases hx : lastWithId k xs with
    | some z =>
      rw [lastWithId_cons_of_some hx] at h
      exact ih (hx.trans (congrArg some (Option.some.inj h)))
    | none =>
      rw [lastWithId_cons_of_none hx] at h
      by_cases hid : x.id = k
      · rw [if_pos hid] at h
        exact (Option.some.inj h) ▸ hid
      · rw [if_neg hid] at h
        exact absurd h (Option.noConfusion)

theorem lastWithId_isSome_of_mem {k : String} {L : List Lifelog}
    (h : ∃ x ∈ L, x.id = k) : ∃ y, lastWithId k L = some y := by
  induction L with
  | nil => simp at h
  | cons x xs ih =>
    cases hx : lastWithId k xs with
    | some z => exact ⟨z, lastWithId_cons_of_some hx⟩
    | none =>
      rcases h with ⟨a, ha, hak⟩
      rcases List.mem_cons.1 ha with rfl | ha'
      · exact ⟨a, by rw [lastWithId_cons_of_none hx, if_pos hak]⟩
      · rcases ih ⟨a, ha', hak⟩ with ⟨y, hy⟩
        rw [hy] at hx
        exact absurd hx (Option.noConfusion)

theorem lastWithId_eq_none {k : String} {L : List Lifelog}
    (h : ∀ x ∈ L, ¬ x.id = k) : lastWithId k L = none := by
  induction L with
  | nil => rfl
  | cons x xs ih =>
    have htail : lastWithId k xs = none :=
      ih (fun a ha => h a (List.mem_cons_of_mem x ha))
    rw [lastWithId_cons_of_none htail, if_neg (h x (List.mem_cons_self x xs))]

theorem lastWithId_filter_ne {k i : String} (h : ¬ k = i) (L : List Lifelog) :
    lastWithId k (L.filter (fun y => y.id ≠ i)) = lastWithId k L := by
  induction L with
  | nil => rfl
  | cons x xs ih =>
    by_cases hx : x.id = i
    · rw [List.filter_cons_of_neg (by simpa using hx), ih,
        lastWithId_cons_ne (by intro hk; exact h (by rw [← hk]; exact hx))]
    · rw [List.filter_cons_of_pos (by simpa using hx)]
      cases ht : lastWithId k xs with
      | some y => rw [lastWithId_cons_of_some (ht ▸ ih), lastWithId_cons_of_some ht]
      | none => rw [lastWithId_cons_of_none (ht ▸ ih), lastWithId_cons_of_none ht]

theorem lastWithId_orderedInsert_ne {k : String} {x : Lifelog} (M : List Lifelog)
    (h : ¬ x.id = k) :
    lastWithId k (M.orderedInsert (kle Lifelog.startTime) x) = lastWithId k M := by
  induction M with
  | nil =>
    rw [List.orderedInsert_nil]
    simp [lastWithId, h]
  | cons y M' ih =>
    by_cases hxy : kle Lifelog.startTime x y
    · rw [List.orderedInsert_of_le _ _ hxy, lastWithId_cons_ne h]
    · have hins : (y :: M').orderedInsert (kle Lifelog.startTime) x
          = y :: M'.orderedInsert (kle Lifelog.startTime) x := by
        simp [List.orderedInsert, hxy]
      rw [hins]
      cases ht : lastWithId k (M'.orderedInsert (kle Lifelog.startTime) x) with
      | some z =>
        rw [lastWithId_cons_of_some ht]
        rw [ih] at ht
        exact (lastWithId_cons_of_some ht).symm
      | none =>
        rw [lastWithId_cons_of_none ht]
        rw [ih] at ht
        exact (lastWithId_cons_of_none ht).symm

theorem lastWithId_orderedInsert_eq {k : String} {x : Lifelog} (M : List Lifelog)
    (hx : x.id = k) (h : ∀ y ∈ M, y.id = k → x.startTime ≤ y.startTime) :
    lastWithId k (M.orderedInsert (kle Lifelog.startTime) x) =
      match lastWithId k M with
      | some y => some y
      | none => some x := by
  induction M with
  | nil =>
    rw [List.orderedInsert_nil]
    simp [lastWithId, hx]
  | cons y M' ih =>
    by_cases hxy : kle Lifelog.startTime x y
    · rw [List.orderedInsert_of_le _ _ hxy]
      cases ht : lastWithId k (y :: M') with
      | some z => rw [lastWithId_cons_of_some ht]
      | none => rw [lastWithId_cons_of_none ht, if_pos hx]
    · have hyk : ¬ y.id = k := by
        intro hyk
        exact hxy (h y (List.mem_cons_self y M') hyk)
      have hins : (y :: M').orderedInsert (kle Lifelog.startTime) x
          = y :: M'.orderedInsert (kle Lifelog.startTime) x := by
        simp [List.orderedInsert, hxy]
      rw [hins, lastWithId_cons_ne hyk,
        ih (fun z hz => h z (List.mem_cons_of_mem y hz)), lastWithId_cons_ne hyk]

/-- `Keyed κ L`: each record's `startTime` is the one its id determines. -/
def Keyed (κ : String → Int) (L : List Lifelog) : Prop :=
  ∀ x ∈ L, x.startTime = κ x.id

theorem Keyed.append_left {κ : String → Int} {A B : List Lifelog}
    (h : Keyed κ (A ++ B)) : Keyed κ A :=
  fun x hx => h x (List.mem_append.2 (Or.inl hx))

theorem Keyed.append_right {κ : String → Int} {A B : List Lifelog}
    (h : Keyed κ (A ++ B)) : Keyed κ B :=
  fun x hx => h x (List.mem_append.2 (Or.inr hx))

/-- Stability of the merge sort for the last-occurrence lookup: all records
with one id share a `startTime`, so sorting keeps their relative order and in
particular the last one. -/
theorem lastWithId_sort {κ : String → Int} {L : List Lifelog} (hk : Keyed κ L)
    (k : String) : lastWithId k (sortByStartTime L) = lastWithId k L := by
  induction L with
  | nil => rfl
  | cons x L' ih =>
    have hstep : sortByStartTime (x :: L')
        = (sortByStartTime L').orderedInsert (kle Lifelog.startTime) x := rfl
    rw [hstep]
    have ih' := ih (fun z hz => hk z (List.mem_cons_of_mem x hz))
    by_cases hid : x.id = k
    · have hall : ∀ y ∈ sortByStartTime L', y.id = k → x.startTime ≤ y.startTime := by
        intro y hy hyk
        have hyL : y ∈ L' := by
          have : y ∈ L'.insertionSort (kle Lifelog.startTime) := hy
          exact (List.mem_insertionSort _).1 this
        have h1 : x.startTime = κ x.id := hk x (List.mem_cons_self x L')
        have h2 : y.startTime = κ y.id := hk y (List.mem_cons_of_mem x hyL)
        rw [h1, h2, hyk, hid]
      rw [lastWithId_orderedInsert_eq _ hid hall, ih']
      cases ht : lastWithId k L' with
      | some z => rw [lastWithId_cons_of_some ht]
      | none => rw [lastWithId_cons_of_none ht, if_pos hid]
    · rw [lastWithId_orderedInsert_ne _ hid, ih', lastWithId_cons_ne hid]

/-! ## The dedup in first-occurrence/last-value form -/

/-- Specification form of `dedupById`: keep, at each id's first position, the
last record carrying that id. -/
def dedupJs : List Lifelog → List Lifelog
  | [] => []
  | x :: xs => ((lastWithId x.id xs).getD x) :: dedupJs (xs.filter (fun y => y.id ≠ x.id))
termination_by l => l.length
decreasing_by
  simp_wf
  exact Nat.lt_succ_of_le (List.length_filter_le _ _)

@[simp]
theorem dedupJs_nil : dedupJs [] = [] := by rw [dedupJs]

theorem dedupJs_cons (x : Lifelog) (xs : List Lifelog) :
    dedupJs (x :: xs) =
      ((lastWithId x.id xs).getD x) :: dedupJs (xs.filter (fun y => y.id ≠ x.id)) := by
  rw [dedupJs]

/-- Folding the JS `Map` build over a list with a distinguished first entry:
the entry keeps its position, receives the last value inserted under its key,
and the rest of the fold never sees that key again. -/
theorem foldl_jsMapSet_cons (k : String) :
    ∀ (L : List Lifelog) (v : Lifelog) (m : List (String × Lifelog)), v.id = k →
    L.foldl jsMapSet ((k, v) :: m) =
      (k, (lastWithId k L).getD v) ::
        (L.filter (fun y => y.id ≠ k)).foldl jsMapSet m := by
  intro L
  induction L with
  | nil =>
    intro v m _
    simp [lastWithId]
  | cons x L' ih =>
    intro v m hv
    by_cases hx : x.id = k
    · have hset : jsMapSet ((k, v) :: m) x = (k, x) :: m := by
        simp [jsMapSet, hx]
      rw [List.foldl_cons, hset, ih x m hx]
      rw [List.filter_cons_of_neg (by simpa using hx)]
      cases ht : lastWithId k L' with
      | some z => rw [lastWithId_cons_of_some ht]; rfl
      | none => rw [lastWithId_cons_of_none ht, if_pos hx]; rfl
    · have hkx : ¬ k = x.id := fun h => hx h.symm
      have hset : jsMapSet ((k, v) :: m) x = (k, v) :: jsMapSet m x := by
        simp [jsMapSet, hkx]
      rw [List.foldl_cons, hset, ih v (jsMapSet m x) hv,
        List.filter_cons_of_pos (by simpa using hx), List.foldl_cons,
        lastWithId_cons_ne hx]

/-- The JS `Map` dedup equals its first-occurrence/last-value specification. -/
theorem dedupById_eq_dedupJs : ∀ (n : Nat) (L : List Lifelog), L.length ≤ n →
    dedupById L = dedupJs L := by
  intro n
  induction n with
  | zero =>
    intro L hlen
    rw [List.length_eq_zero.1 (Nat.le_zero.1 hlen)]
    rw [dedupJs_nil]
    rfl
  | succ n ih =>
    intro L hlen
    cases L with
    | nil => rw [dedupJs_nil]; rfl
    | cons x xs =>
      have h1 : dedupById (x :: xs)
          = ((x :: xs).foldl jsMapSet []).map Prod.snd := rfl
      rw [h1, List.foldl_cons]
      have h2 : jsMapSet [] x = [(x.id, x)] := rfl
      rw [h2, foldl_jsMapSet_cons x.id xs x [] rfl]
      rw [List.map_cons]
      have h3 : ((xs.filter (fun y => y.id ≠ x.id)).foldl jsMapSet []).map Prod.snd
          = dedupById (xs.filter (fun y => y.id ≠ x.id)) := rfl
      rw [h3, ih _ (le_trans (List.length_filter_le _ _) (Nat.le_of_succ_le_succ hlen)),
        dedupJs_cons]

/-- The value the merge keeps for id `k`. -/
def lastVal (L : List Lifelog) (k : String) : Lifelog := (lastWithId k L).getD default

theorem map_id_filter (i : String) (L : List Lifelog) :
    (L.filter (fun y => y.id ≠ i)).map Lifelog.id
      = (L.map Lifelog.id).filter (fun k => k ≠ i) := by
  induction L with
  | nil => rfl
  | cons x xs ih =>
    by_cases hx : x.id = i
    · rw [List.filter_cons_of_neg (by simpa using hx), List.map_cons,
        List.filter_cons_of_neg (by simpa using hx), ih]
    · rw [List.filter_cons_of_pos (by simpa using hx), List.map_cons, List.map_cons,
        List.filter_cons_of_pos (by simpa using hx), ih]

/-- The dedup, expressed as the first-occurrence id list mapped through the
last-value table. -/
theorem dedupJs_eq_map : ∀ (n : Nat) (L : List Lifelog), L.length ≤ n →
    dedupJs L = (firstDedup (L.map Lifelog.id)).map (lastVal L) := by
  intro n
  induction n with
  | zero =>
    intro L hlen
    rw [List.length_eq_zero.1 (Nat.le_zero.1 hlen)]
    simp
  | succ n ih =>
    intro L hlen
    cases L with
    | nil => simp
    | cons x xs =>
      rw [dedupJs_cons, List.map_cons, firstDedup_cons, List.map_cons]
      have hlen' : (xs.filter (fun y => y.id ≠ x.id)).length ≤ n :=
        le_trans (List.length_filter_le _ _) (Nat.le_of_succ_le_succ hlen)
      rw [ih _ hlen']
      congr 1
      · show (lastWithId x.id xs).getD x = lastVal (x :: xs) x.id
        unfold lastVal
        cases ht : lastWithId x.id xs with
        | some y => rw [lastWithId_cons_of_some ht]; rfl
        | none => rw [lastWithId_cons_of_none ht, if_pos rfl]; rfl
      · rw [map_id_filter]
        refine List.map_congr_left ?_
        intro k hk
        have hkne : ¬ k = x.id := by
          have := (mem_firstDedup _ _ (le_refl _)).1 hk
          have := (List.mem_filter.1 this).2
          simpa using this
        unfold lastVal
        rw [lastWithId_filter_ne hkne, lastWithId_cons_ne (fun h => hkne h.symm)]

theorem mem_dedupJs_subset : ∀ (n : Nat) (L : List Lifelog), L.length ≤ n →
    ∀ y ∈ dedupJs L, y ∈ L := by
  intro n
  induction n with
  | zero =>
    intro L hlen
    rw [List.length_eq_zero.1 (Nat.le_zero.1 hlen)]
    simp
  | succ n ih =>
    intro L hlen y hy
    cases L with
    | nil => simpa using hy
    | cons x xs =>
      rw [dedupJs_cons] at hy
      rcases List.mem_cons.1 hy with h | h
      · cases ht : lastWithId x.id xs with
        | some z =>
          rw [ht] at h
          exact List.mem_cons_of_mem x (h ▸ lastWithId_mem ht)
        | none =>
          rw [ht] at h
          exact h ▸ List.mem_cons_self x xs
      · have := ih _ (le_trans (List.length_filter_le _ _)
          (Nat.le_of_succ_le_succ hlen)) y h
        exact List.mem_cons_of_mem x (List.mem_filter.1 this).1

theorem ids_dedupJs : ∀ (n : Nat) (L : List Lifelog), L.length ≤ n →
    (dedupJs L).map Lifelog.id = firstDedup (L.map Lifelog.id) := by
  intro n
  induction n with
  | zero =>
    intro L hlen
    rw [List.length_eq_zero.1 (Nat.le_zero.1 hlen)]
    simp
  | succ n ih =>
    intro L hlen
    cases L with
    | nil => simp
    | cons x xs =>
      rw [dedupJs_cons, List.map_cons, List.map_cons, firstDedup_cons,
        ih _ (le_trans (List.length_filter_le _ _) (Nat.le_of_succ_le_succ hlen)),
        map_id_filter]
      congr 1
      cases ht : lastWithId x.id xs with
      | some z => exact lastWithId_id ht
      | none => rfl

theorem lastWithId_dedupJs : ∀ (n : Nat) (L : List Lifelog), L.length ≤ n →
    ∀ k, lastWithId k (dedupJs L) = lastWithId k L := by
  intro n
  induction n with
  | zero =>
    intro L hlen k
    rw [List.length_eq_zero.1 (Nat.le_zero.1 hlen)]
    simp
  | succ n ih =>
    intro L hlen k
    cases L with
    | nil => simp
    | cons x xs =>
      have hlen' : (xs.filter (fun y => y.id ≠ x.id)).length ≤ n :=
        le_trans (List.length_filter_le _ _) (Nat.le_of_succ_le_succ hlen)
      rw [dedupJs_cons]
      by_cases hk : x.id = k
      · subst hk
        -- the tail of the dedup holds no record with this id
        have htail : lastWithId x.id (dedupJs (xs.filter (fun y => y.id ≠ x.id))) = none := by
          refine lastWithId_eq_none ?_
          intro y hy hyk
          have hmem := mem_dedupJs_subset _ _ le_rfl y hy
          have := (List.mem_filter.1 hmem).2
          simp [hyk] at this
        rw [lastWithId_cons_of_none htail]
        cases ht : lastWithId x.id xs with
        | some z =>
          rw [lastWithId_cons_of_some ht]
          show (if z.id = x.id then some z else none) = some z
          rw [if_pos (lastWithId_id ht)]
        | none =>
          rw [lastWithId_cons_of_none ht]
          simp
      · have hvne : ¬ ((lastWithId x.id xs).getD x).id = k := by
          cases ht : lastWithId x.id xs with
          | some z => exact fun h => hk ((lastWithId_id ht) ▸ h)
          | none => exact hk
        rw [lastWithId_cons_ne hvne, ih _ hlen' k,
          lastWithId_filter_ne (fun h => hk h.symm), lastWithId_cons_ne hk]

/-! ## The merge characterization -/

/-- The key table induced by a list in which each id determines a startTime. -/
def idKey (L : List Lifelog) (i : String) : Int := (lastVal L i).startTime

/-- “Fixed startTime values per id”: any two records with the same id carry
the same `startTime`. -/
def IdDeterminesStart (L : List Lifelog) : Prop :=
  ∀ a ∈ L, ∀ b ∈ L, a.id = b.id → a.startTime = b.startTime

instance (L : List Lifelog) : Decidable (IdDeterminesStart L) := by
  unfold IdDeterminesStart
  infer_instance

theorem keyed_of_idDeterminesStart {L : List Lifelog} (h : IdDeterminesStart L) :
    Keyed (idKey L) L := by
  intro x hx
  unfold idKey lastVal
  rcases lastWithId_isSome_of_mem ⟨x, hx, rfl⟩ with ⟨y, hy⟩
  rw [hy]
  exact h x hx y (lastWithId_mem hy) (lastWithId_id hy).symm

/-- The merge, characterized: stable-sort the first-occurrence id list by the
ids' shared keys and look each id up in the last-value table. -/
theorem mergeAll_eq_char {κ : String → Int} {L : List Lifelog} (hk : Keyed κ L) :
    mergeAll L = (ksort κ (firstDedup (L.map Lifelog.id))).map (lastVal L) := by
  unfold mergeAll
  rw [dedupById_eq_dedupJs (sortByStartTime L).length _ le_rfl,
    dedupJs_eq_map (sortByStartTime L).length _ le_rfl]
  have hmap : (sortByStartTime L).map Lifelog.id = ksort κ (L.map Lifelog.id) := by
    unfold sortByStartTime ksort
    refine List.map_insertionSort _ _ _ _ ?_
    intro a ha b hb
    unfold kle
    rw [hk a ha, hk b hb]
  rw [hmap, firstDedup_ksort κ _ _ le_rfl]
  have hval : lastVal (sortByStartTime L) = lastVal L := by
    funext k
    unfold lastVal
    rw [lastWithId_sort hk k]
  rw [hval]

theorem mem_mergeAll_subset {L : List Lifelog} {y : Lifelog}
    (h : y ∈ mergeAll L) : y ∈ L := by
  unfold mergeAll at h
  rw [dedupById_eq_dedupJs (sortByStartTime L).length _ le_rfl] at h
  have := mem_dedupJs_subset (sortByStartTime L).length _ le_rfl y h
  exact (List.mem_insertionSort _).1 this

theorem lastWithId_mergeAll {κ : String → Int} {L : List Lifelog} (hk : Keyed κ L)
    (k : String) : lastWithId k (mergeAll L) = lastWithId k L := by
  unfold mergeAll
  rw [dedupById_eq_dedupJs (sortByStartTime L).length _ le_rfl,
    lastWithId_dedupJs (sortByStartTime L).length _ le_rfl k,
    lastWithId_sort hk k]

theorem ids_mergeAll {κ : String → Int} {L : List Lifelog} (hk : Keyed κ L) :
    (mergeAll L).map Lifelog.id = ksort κ (firstDedup (L.map Lifelog.id)) := by
  rw [mergeAll_eq_char hk, List.map_map]
  refine List.map_congr_left ?_ |>.trans (List.map_id _)
  intro k hkmem
  have h1 : k ∈ firstDedup (L.map Lifelog.id) := by
    have : k ∈ (firstDedup (L.map Lifelog.id)).insertionSort (kle κ) := hkmem
    exact (List.mem_insertionSort _).1 this
  have h2 : k ∈ L.map Lifelog.id := (mem_firstDedup _ _ le_rfl).1 h1
  rcases List.mem_map.1 h2 with ⟨x, hx, hxk⟩
  rcases lastWithId_isSome_of_mem ⟨x, hx, hxk⟩ with ⟨y, hy⟩
  show (lastVal L k).id = k
  unfold lastVal
  rw [hy]
  exact lastWithId_id hy

/-- The id-level core: pre-merging a prefix does not change the final
sorted-dedup of the id list. -/
theorem ksort_firstDedup_absorb {α : Type} [DecidableEq α] (key : α → Int)
    (I J : List α) :
    ksort key (firstDedup (ksort key (firstDedup I) ++ J))
      = ksort key (firstDedup (I ++ J)) := by
  refine ksort_eq_of_classes key ?_
  intro c
  have hconst : ∀ z ∈ firstDedup (I.filter (fun z => key z = c)), key z = c := by
    intro z hz
    have h1 := (mem_firstDedup _ _ le_rfl).1 hz
    have := (List.mem_filter.1 h1).2
    simpa using this
  calc (firstDedup (ksort key (firstDedup I) ++ J)).filter (fun z => key z = c)
      = firstDedup ((ksort key (firstDedup I) ++ J).filter (fun z => key z = c)) := by
        rw [firstDedup_filter _ _ _ le_rfl]
    _ = firstDedup (ksort key ((firstDedup I).filter (fun z => key z = c))
          ++ J.filter (fun z => key z = c)) := by
        rw [List.filter_append, ksort_filter]
    _ = firstDedup (firstDedup (I.filter (fun z => key z = c))
          ++ J.filter (fun z => key z = c)) := by
        rw [firstDedup_filter _ _ _ le_rfl, ksort_of_const key hconst]
    _ = firstDedup (I.filter (fun z => key z = c) ++ J.filter (fun z => key z = c)) :=
        firstDedup_append_left _ _ _ le_rfl
    _ = firstDedup ((I ++ J).filter (fun z => key z = c)) := by
        rw [List.filter_append]
    _ = (firstDedup (I ++ J)).filter (fun z => key z = c) := by
        rw [firstDedup_filter _ _ _ le_rfl]

/-- Merging a batch on top of an already-merged state is the same as merging
everything at once (given per-id startTimes). -/
theorem mergeAll_absorb {κ : String → Int} {X Y : List Lifelog}
    (hk : Keyed κ (X ++ Y)) :
    mergeAll (mergeAll X ++ Y) = mergeAll (X ++ Y) := by
  have hkX : Keyed κ X := hk.append_left
  have hkM : Keyed κ (mergeAll X ++ Y) := by
    intro z hz
    rcases List.mem_append.1 hz with h | h
    · exact hk z (List.mem_append.2 (Or.inl (mem_mergeAll_subset h)))
    · exact hk z (List.mem_append.2 (Or.inr h))
  rw [mergeAll_eq_char hkM, mergeAll_eq_char hk]
  have hval : lastVal (mergeAll X ++ Y) = lastVal (X ++ Y) := by
    funext k
    unfold lastVal
    cases hY : lastWithId k Y with
    | some y => rw [lastWithId_append_of_some _ hY, lastWithId_append_of_some _ hY]
    | none =>
      rw [lastWithId_append_of_none _ hY, lastWithId_append_of_none _ hY,
        lastWithId_mergeAll hkX k]
  rw [hval]
  congr 1
  rw [List.map_append, List.map_append, ids_mergeAll hkX]
  exact ksort_firstDedup_absorb κ _ _

/-- Re-merging a batch already contained in the input changes nothing. -/
theorem mergeAll_dup {κ : String → Int} {X R : List Lifelog}
    (hk : Keyed κ (X ++ R)) :
    mergeAll ((X ++ R) ++ R) = mergeAll (X ++ R) := by
  have hk2 : Keyed κ ((X ++ R) ++ R) := by
    intro z hz
    rcases List.mem_append.1 hz with h | h
    · exact hk z h
    · exact hk z (List.mem_append.2 (Or.inr h))
  rw [mergeAll_eq_char hk2, mergeAll_eq_char hk]
  have hval : lastVal ((X ++ R) ++ R) = lastVal (X ++ R) := by
    funext k
    unfold lastVal
    cases hR : lastWithId k R with
    | some y =>
      rw [lastWithId_append_of_some _ hR, lastWithId_append_of_some _ hR]
    | none => rw [lastWithId_append_of_none _ hR]
  rw [hval]
  congr 2
  rw [List.map_append]
  refine firstDedup_append_subset ((X ++ R).map Lifelog.id).length _ _ le_rfl ?_
  intro j hj
  rw [List.map_append]
  exact List.mem_append.2 (Or.inr hj)

/-! ## Claims C1 and C2: the structured-merge algebra -/

theorem lastVal_startTime {κ : String → Int} {L : List Lifelog} (hk : Keyed κ L)
    {i : String} (hi : ∃ x ∈ L, x.id = i) : (lastVal L i).startTime = κ i := by
  rcases lastWithId_isSome_of_mem hi with ⟨y, hy⟩
  unfold lastVal
  rw [hy]
  show y.startTime = κ i
  rw [hk y (lastWithId_mem hy), lastWithId_id hy]

theorem mem_sort_fd_ids {κ : String → Int} {L : List Lifelog} {i : String}
    (hi : i ∈ ksort κ (firstDedup (L.map Lifelog.id))) : ∃ x ∈ L, x.id = i := by
  have h1 : i ∈ firstDedup (L.map Lifelog.id) := by
    have : i ∈ (firstDedup (L.map Lifelog.id)).insertionSort (kle κ) := hi
    exact (List.mem_insertionSort _).1 this
  have h2 : i ∈ L.map Lifelog.id := (mem_firstDedup _ _ le_rfl).1 h1
  rcases List.mem_map.1 h2 with ⟨x, hx, hxk⟩
  exact ⟨x, hx, hxk⟩

/-- **C1.** The structured-mode merge (`appendToFile` of `src/export.js`) is
idempotent and order-of-arrival independent: for any prior bucket state `B`
and batches `R`, `R1`, `R2` with fixed `startTime` values per id, running the
merge with `R` twice yields the same bucket contents as running it once, and
merging `R1` then `R2` yields the same bucket as merging the combined batch
`R1 ++ R2` at once. -/
theorem c1_appendToFile_idempotent_order_independent
    (B R R1 R2 : List Lifelog)
    (h1 : IdDeterminesStart (B ++ R))
    (h2 : IdDeterminesStart (B ++ R1 ++ R2)) :
    appendToFile (appendToFile B R) R = appendToFile B R ∧
    appendToFile (appendToFile B R1) R2 = appendToFile B (R1 ++ R2) := by
  constructor
  · have hk : Keyed (idKey (B ++ R)) (B ++ R) := keyed_of_idDeterminesStart h1
    have hk2 : Keyed (idKey (B ++ R)) ((B ++ R) ++ R) := by
      intro z hz
      rcases List.mem_append.1 hz with h | h
      · exact hk z h
      · exact hk z (List.mem_append.2 (Or.inr h))
    simp only [appendToFile_eq_mergeAll]
    rw [mergeAll_absorb hk2, mergeAll_dup hk]
  · have hk : Keyed (idKey (B ++ R1 ++ R2)) (B ++ R1 ++ R2) :=
      keyed_of_idDeterminesStart h2
    simp only [appendToFile_eq_mergeAll]
    rw [mergeAll_absorb hk, List.append_assoc]

/-- Concrete records exercising C1: an overlapping id between bucket and
batch, a startTime tie, and a second batch. -/
def c1B : List Lifelog := [⟨"a", 1, 2, none⟩]
def c1R : List Lifelog := [⟨"a", 1, 3, none⟩, ⟨"b", 0, 1, none⟩]
def c1R2 : List Lifelog := [⟨"c", 2, 3, none⟩]

theorem c1_witness :
    IdDeterminesStart (c1B ++ c1R) ∧ IdDeterminesStart (c1B ++ c1R ++ c1R2) ∧
    (appendToFile (appendToFile c1B c1R) c1R = appendToFile c1B c1R ∧
      appendToFile (appendToFile c1B c1R) c1R2 = appendToFile c1B (c1R ++ c1R2)) :=
  ⟨by decide, by decide,
    c1_appendToFile_idempotent_order_independent c1B c1R c1R c1R2 (by decide) (by decide)⟩

/-- Records for the C2 counterexample: id "a" occurs with two different
startTimes, so after dedup (last value wins, first position kept) the bucket
is no longer sorted. -/
def c2a5 : Lifelog := ⟨"a", 5, 5, none⟩
def c2b1 : Lifelog := ⟨"b", 1, 1, none⟩
def c2a0 : Lifelog := ⟨"a", 0, 0, none⟩

/-- **C2, counterexample.** As literally stated — for *every* input batch —
the order invariant fails: merging `[c2a5, c2b1, c2a0]` into an empty bucket
yields `[c2a5, c2b1]`, whose startTimes `5, 1` are decreasing.  (The id "a"
keeps its first position, sorted below startTime 1, but receives the value
with startTime 5.) -/
theorem c2_counterexample :
    ¬ ((appendToFile [] [c2a5, c2b1, c2a0]).Pairwise
        (fun a b => a.startTime ≤ b.startTime)) := by
  intro h
  have he : appendToFile [] [c2a5, c2b1, c2a0] = [c2a5, c2b1] := by decide
  rw [he] at h
  have h5 := (List.pairwise_cons.1 h).1 c2b1 (List.mem_cons_self _ _)
  exact absurd h5 (by decide)

/-- **C2 (amended).** After every structured merge the bucket holds no two
records with one id; and provided every id determines a single `startTime`
(the claim's implicit API guarantee, violated only by the counterexample's
adversarial input), the records are non-decreasing by `startTime`. -/
theorem c2_merge_dedup_sorted (B R : List Lifelog) :
    ((appendToFile B R).map Lifelog.id).Nodup ∧
    (IdDeterminesStart (B ++ R) →
      (appendToFile B R).Pairwise (fun a b => a.startTime ≤ b.startTime)) := by
  constructor
  · rw [appendToFile_eq_mergeAll]
    show ((dedupById (sortByStartTime (B ++ R))).map Lifelog.id).Nodup
    rw [dedupById_eq_dedupJs (sortByStartTime (B ++ R)).length _ le_rfl,
      ids_dedupJs (sortByStartTime (B ++ R)).length _ le_rfl]
    exact firstDedup_nodup _ _ le_rfl
  · intro h
    have hk : Keyed (idKey (B ++ R)) (B ++ R) := keyed_of_idDeterminesStart h
    rw [appendToFile_eq_mergeAll, mergeAll_eq_char hk, List.pairwise_map]
    refine List.Pairwise.imp_of_mem ?_ (ksort_sorted (idKey (B ++ R)) _)
    intro i j hi hj hij
    have hvi := lastVal_startTime hk (mem_sort_fd_ids hi)
    have hvj := lastVal_startTime hk (mem_sort_fd_ids hj)
    rw [hvi, hvj]
    exact hij

theorem c2_witness :
    IdDeterminesStart ([] ++ [c2a0, c2b1]) ∧
    (((appendToFile [] [c2a0, c2b1]).map Lifelog.id).Nodup ∧
      (appendToFile [] [c2a0, c2b1]).Pairwise (fun a b => a.startTime ≤ b.startTime)) :=
  ⟨by decide,
    (c2_merge_dedup_sorted [] [c2a0, c2b1]).1,
    (c2_merge_dedup_sorted [] [c2a0, c2b1]).2 (by decide)⟩

/-! ## Claims C4–C6: the Remote Log Client (`fetchLifelogs`)

`src/unnamed/part_002` lines 275–327.  Each `axios.get` call is scripted as
one `ApiEvent`; the model returns what the caller observes plus the ordered
list of `sleep` durations (ms). -/

def MAX_RETRIES : Nat := 3

/-- One page of the remote response: `data.lifelogs` and the pagination
cursor extracted from `meta`. -/
structure Page where
  lifelogs : List Lifelog
  nextCursor : Option String
deriving DecidableEq, Repr, Inhabited

/-- Outcome of one `axios.get` call, as the code distinguishes them: a
schema-valid body, a schema-invalid body, an axios error with HTTP status
429, or any other axios error (network error, 5xx, timeout). -/
inductive ApiEvent where
  | success (page : Page)
  | invalid
  | rateLimited
  | transient
deriving DecidableEq, Repr

/-- What the caller of a fetch observes. -/
inductive FetchResult where
  | ok (page : Page)
  | errInvalid
  | errFetch
  | pending
deriving DecidableEq, Repr

/-- `fetchLifelogs(apiUrl, params, retryCount)`: on 429, sleep 60000 ms and
recurse with the SAME `retryCount`; on another axios error, while
`retryCount < MAX_RETRIES` sleep `1000 * 2 ^ retryCount` and recurse with
`retryCount + 1`, otherwise rethrow; a response failing Zod validation throws
`Invalid API response structure` at once — it is not an axios error, so the
retry branch never sees it. -/
def fetchLifelogs : List ApiEvent → Nat → FetchResult × List Nat
  | [], _ => (.pending, [])
  | e :: rest, retryCount =>
    match e with
    | .success p => (.ok p, [])
    | .invalid => (.errInvalid, [])
    | .rateLimited =>
      let r := fetchLifelogs rest retryCount
      (r.1, 60000 :: r.2)
    | .transient =>
      if retryCount < MAX_RETRIES then
        let r := fetchLifelogs rest (retryCount + 1)
        (r.1, 1000 * 2 ^ retryCount :: r.2)
      else (.errFetch, [])

/-- Retry loop of the first-generation exporter (src/export.js lines
106–148): `retries` starts at 0, a failure increments it, the error is
rethrown once `retries` equals `MAX_RETRIES`, otherwise it sleeps
`1000 * retries`.  The script says whether each call succeeds. -/
def exportJsRetry : List Bool → Nat → FetchResult × List Nat
  | [], _ => (.pending, [])
  | ok :: rest, retries =>
    if ok then (.ok default, [])
    else
      if retries + 1 = MAX_RETRIES then (.errFetch, [])
      else
        let r := exportJsRetry rest (retries + 1)
        (r.1, 1000 * (retries + 1) :: r.2)

/-- **C4.** A 429 response makes `fetchLifelogs` wait the fixed 60-second
cooldown and retry the same attempt with an unchanged retry count; any number
of consecutive 429s is survived (the cooldown never counts against the retry
ceiling), a single 429 followed by a success yields exactly one successful
result after exactly one cooldown wait, and the cooldown exceeds every
backoff delay the retry path can sleep. -/
theorem c4_rate_limit_cooldown :
    (∀ (rest : List ApiEvent) (n : Nat),
      fetchLifelogs (.rateLimited :: rest) n
        = ((fetchLifelogs rest n).1, 60000 :: (fetchLifelogs rest n).2)) ∧
    (∀ (k n : Nat) (p : Page),
      fetchLifelogs (List.replicate k .rateLimited ++ [.success p]) n
        = (.ok p, List.replicate k 60000)) ∧
    (∀ p : Page, fetchLifelogs [.rateLimited, .success p] 0 = (.ok p, [60000])) ∧
    (∀ n, n < MAX_RETRIES → 1000 * 2 ^ n < 60000) := by
  refine ⟨fun rest n => rfl, ?_, fun p => rfl, ?_⟩
  · intro k
    induction k with
    | zero => intro n p; rfl
    | succ k ih =>
      intro n p
      rw [List.replicate_succ, List.cons_append]
      show ((fetchLifelogs (List.replicate k .rateLimited ++ [.success p]) n).1,
        60000 :: (fetchLifelogs (List.replicate k .rateLimited ++ [.success p]) n).2)
          = (.ok p, List.replicate (k + 1) 60000)
      rw [ih n p, List.replicate_succ]
  · intro n hn
    have hn' : n < 3 := hn
    interval_cases n <;> decide

theorem c4_witness :
    (0 < MAX_RETRIES ∧ 1000 * 2 ^ 0 < 60000) ∧
    fetchLifelogs [.rateLimited, .success ⟨[], none⟩] 0 = (.ok ⟨[], none⟩, [60000]) :=
  ⟨⟨by decide, c4_rate_limit_cooldown.2.2.2 0 (by decide)⟩,
    c4_rate_limit_cooldown.2.2.1 ⟨[], none⟩⟩

/-- **C5.** Transient failures are retried with exponential backoff up to the
ceiling `MAX_RETRIES = 3`: four consecutive transient errors produce exactly
the doubling backoff waits 1000, 2000, 4000 ms and then surface the error to
the caller regardless of any further scripted responses; each retry under the
ceiling sleeps `1000 * 2 ^ retryCount`, which doubles per attempt.  The
first-generation loop in src/export.js likewise gives up after its ceiling,
with its delay doubling from 1000 to 2000 ms. -/
theorem c5_transient_retry_ceiling :
    (∀ rest : List ApiEvent,
      fetchLifelogs (.transient :: .transient :: .transient :: .transient :: rest) 0
        = (.errFetch, [1000, 2000, 4000])) ∧
    (∀ (n : Nat) (rest : List ApiEvent), n < MAX_RETRIES →
      fetchLifelogs (.transient :: rest) n
        = ((fetchLifelogs rest (n + 1)).1,
            1000 * 2 ^ n :: (fetchLifelogs rest (n + 1)).2)) ∧
    (∀ n : Nat, 1000 * 2 ^ (n + 1) = 2 * (1000 * 2 ^ n)) ∧
    (∀ rest : List Bool,
      exportJsRetry (false :: false :: false :: rest) 0 = (.errFetch, [1000, 2000])
        ∧ 2000 = 2 * 1000) := by
  refine ⟨fun rest => rfl, ?_, fun n => by ring, fun rest => ⟨rfl, rfl⟩⟩
  intro n rest hn
  simp only [fetchLifelogs, if_pos hn]

theorem c5_witness :
    0 < MAX_RETRIES ∧
    fetchLifelogs [.transient] 0
      = ((fetchLifelogs [] 1).1, 1000 * 2 ^ 0 :: (fetchLifelogs [] 1).2) :=
  ⟨by decide, c5_transient_retry_ceiling.2.1 0 [] (by decide)⟩

/-- **C6.** A response that fails schema validation is fatal for that call:
`fetchLifelogs` raises at once — no wait is slept, no further scripted
response is consumed, and the retry count is irrelevant, because the thrown
`Error` is not an axios error and therefore never reaches the 429/backoff
branches. -/
theorem c6_validation_failure_fatal :
    ∀ (rest : List ApiEvent) (n : Nat),
      fetchLifelogs (.invalid :: rest) n = (.errInvalid, []) :=
  fun _ _ => rfl

/-! ## Claim C3: narrative (markdown) mode

`createMarkdownFile` (src/unnamed/part_002 lines 232–273) renders ONLY the
lifelogs passed to it and writes the result with `fs.writeFile`, replacing
whatever the date's file held; `processLifelogs` hands it just the freshly
fetched batch.  The write is modelled as a function of the prior file
contents returning the new contents. -/

/-- Rendering of one content item.  `timeFmt` abstracts
`new Date(item.startTime).toLocaleTimeString()`; locale formatting is
irrelevant to the claims, so it is a parameter. -/
def renderItem (timeFmt : Option String → String) (item : ContentItem) : String :=
  match item.type with
  | .heading1 => "# " ++ item.content ++ "\n"
  | .heading2 => "## " ++ item.content ++ "\n"
  | .heading3 => "### " ++ item.content ++ "\n"
  | .blockquote =>
    "> **" ++ item.speakerName.getD "Unknown" ++ "** (" ++ timeFmt item.startTime
      ++ "): " ++ item.content ++ "\n"
  | .text => item.content ++ "\n"

/-- One lifelog's markdown chunk: items rendered in order, joined by
newlines; absent `contents` renders as the empty string. -/
def renderLifelog (timeFmt : Option String → String) (l : Lifelog) : String :=
  match l.contents with
  | none => ""
  | some items => String.intercalate "\n" (items.map (renderItem timeFmt))

/-- The markdown `createMarkdownFile` builds from the batch it is given:
per-lifelog chunks, blank chunks dropped, joined by blank lines. -/
def jsWhitespace (ch : Char) : Bool :=
  ch = ' ' ∨ ch = '\n' ∨ ch = '\t' ∨ ch = '\r'

/-- Truthiness of `content.trim()`: the chunk holds some non-whitespace
character. -/
def trimTruthy (s : String) : Bool := s.data.any (fun ch => ¬ jsWhitespace ch)

def createMarkdownContent (timeFmt : Option String → String)
    (lifelogs : List Lifelog) : String :=
  String.intercalate "\n\n"
    ((lifelogs.map (renderLifelog timeFmt)).filter trimTruthy)

/-- `createMarkdownFile` as a file-state transformer: `fs.writeFile` replaces
the prior contents with the rendering of the batch alone — the prior
contents are never read. -/
def createMarkdownFile (timeFmt : Option String → String)
    (_priorContents : Option String) (lifelogs : List Lifelog) : String :=
  createMarkdownContent timeFmt lifelogs

/-- Records for the C3 failing input: record `a` was merged by an earlier
run; a later batch carries only record `b`. -/
def mdRecA : Lifelog := ⟨"a", 0, 1, some [⟨.text, "alpha", none, none⟩]⟩
def mdRecB : Lifelog := ⟨"b", 2, 3, some [⟨.text, "beta", none, none⟩]⟩

/-- **C3 (code bug).** Narrative-mode merge does not satisfy the Archive
Writer contract: the new file contents are a function of the fresh batch
alone, so for a date whose file held previously merged records, merging a new
batch replaces the file with only the new batch.  Concretely: with record `a`
already on disk, merging `[b]` writes `"beta\n"`, not the recompute-from-all
contents `"alpha\n\n\nbeta\n"`. -/
theorem c3_markdown_overwrite_loses_records :
    (∀ (timeFmt : Option String → String) (prior : Option String) (logs : List Lifelog),
      createMarkdownFile timeFmt prior logs = createMarkdownContent timeFmt logs) ∧
    (∀ timeFmt : Option String → String,
      createMarkdownFile timeFmt
          (some (createMarkdownContent timeFmt [mdRecA])) [mdRecB]
        = createMarkdownContent timeFmt [mdRecB]) ∧
    createMarkdownContent (fun _ => "") [mdRecB] = "beta\n" ∧
    createMarkdownContent (fun _ => "") [mdRecA, mdRecB] = "alpha\n\n\nbeta\n" ∧
    ("beta\n" : String) ≠ "alpha\n\n\nbeta\n" := by
  exact ⟨fun _ _ _ => rfl, fun _ => rfl, by decide, by decide, by decide⟩

/-! ## The sync loops

`exportLifelogs` of src/unnamed/part_002 (full-sync mode, lines 406–486, and
cursor mode, lines 487–608) and of the zod-generation exporter in
src/export.js (lines 326–460).  The success path is modelled as a
trace-producing function: each HTTP request, per-date markdown write,
sync-state save and rate-limit sleep becomes one `SyncEvent`, tagged with the
iteration that produced it.  Dates are UTC day indices (`dayOf`). -/

def RATE_LIMIT_DELAY : Nat := 3000
def BATCH_SIZE : Nat := 10
def FULL_SYNC_EMPTY_DAYS_THRESHOLD : Nat := 10

inductive SyncEvent where
  | request (iter : Nat) (limit : Nat) (cursor : Option String) (date : Option Int)
  | mergeFile (iter : Nat) (date : Int) (count : Nat)
  | checkpoint (iter : Nat) (savedCursor : Option String)
  | wait (iter : Nat) (ms : Nat)
deriving DecidableEq, Repr

def iterOf : SyncEvent → Nat
  | .request i _ _ _ => i
  | .mergeFile i _ _ => i
  | .checkpoint i _ => i
  | .wait i _ => i

/-- First-occurrence dedup with an explicit seen-set accumulator (the order
in which a JS object acquires its keys). -/
def seenDates : List Int → List Int → List Int
  | _, [] => []
  | seen, x :: xs =>
    if x ∈ seen then seenDates seen xs else x :: seenDates (x :: seen) xs

/-- The dates of a batch, in first-occurrence order (the JS object keys of
`lifelogsByDate`). -/
def datesOf (logs : List Lifelog) : List Int :=
  seenDates [] (logs.map (fun l => dayOf l.startTime))

/-- `processLifelogs` (part_002 lines 191–230): group by date and write one
markdown file per date, in first-occurrence order of the dates. -/
def mergeEvents (iter : Nat) (logs : List Lifelog) : List SyncEvent :=
  (datesOf logs).map (fun d =>
    SyncEvent.mergeFile iter d (logs.filter (fun l => dayOf l.startTime = d)).length)

/-- `processLifelogs` also DELETES every date that just received data from
`syncState.emptyDays`; no code path ever adds a date to it. -/
def pruneEmptyDays (emptyDays : List Int) (logs : List Lifelog) : List Int :=
  emptyDays.filter (fun d => ¬ d ∈ datesOf logs)

/-- Full-sync loop: one date-scoped request per iteration, walking backward
from `day`; `fuel` counts the dates down to the end date; `consec` counts
consecutive empty days.  The script maps a date to the lifelogs the API
returns for it.  Returns the trace together with the final `emptyDays`.
On an empty date past the threshold the loop breaks before saving state; on
other dates the order is request, merges (if any), checkpoint, sleep. -/
def fullSyncGo (script : Int → List Lifelog) : Nat → Int → Nat → List Int → Nat →
    List SyncEvent × List Int
  | 0, _, _, empt, _ => ([], empt)
  | fuel + 1, day, consec, empt, iter =>
    if (script day).isEmpty then
      if FULL_SYNC_EMPTY_DAYS_THRESHOLD ≤ consec + 1 then
        ([SyncEvent.request iter BATCH_SIZE none (some day)], empt)
      else
        (SyncEvent.request iter BATCH_SIZE none (some day) ::
          SyncEvent.checkpoint iter none ::
            SyncEvent.wait iter RATE_LIMIT_DELAY ::
              (fullSyncGo script fuel (day - 1) (consec + 1) empt (iter + 1)).1,
          (fullSyncGo script fuel (day - 1) (consec + 1) empt (iter + 1)).2)
    else
      (SyncEvent.request iter BATCH_SIZE none (some day) ::
        (mergeEvents iter (script day)
          ++ SyncEvent.checkpoint iter none ::
            SyncEvent.wait iter RATE_LIMIT_DELAY ::
              (fullSyncGo script fuel (day - 1) 0
                (pruneEmptyDays empt (script day)) (iter + 1)).1),
        (fullSyncGo script fuel (day - 1) 0
          (pruneEmptyDays empt (script day)) (iter + 1)).2)

/-- A full-sync run from `today` back to `endDate` inclusive. -/
def fullSyncRun (script : Int → List Lifelog) (today endDate : Int)
    (emptyDays : List Int) : List SyncEvent × List Int :=
  fullSyncGo script (today + 1 - endDate).toNat today 0 emptyDays 0

/-- The cursor-mode stop test: the oldest (last) record of the batch falls
at or before the end date. -/
def reachedEnd (endDate : Option Int) (logs : List Lifelog) : Bool :=
  match endDate, logs.getLast? with
  | some e, some l => decide (dayOf l.startTime ≤ e)
  | _, _ => false

/-- The zod-generation stop test: the batch's oldest record has reached the
safe sync point. -/
def reachedSafe (safeDate : Int) (logs : List Lifelog) : Bool :=
  match logs.getLast? with
  | some l => decide (safeDate ≤ dayOf l.startTime)
  | none => false

/-- Cursor-mode loop of part_002: the walk always starts with
`cursor = null`, and part_002's saved sync state has no cursor field, so
every checkpoint records `none` as the persisted cursor.  An empty page with
a live cursor continues (without checkpoint or sleep) along `nextCursor`;
reaching a batch whose oldest record is at or before the end date breaks
before processing. -/
def cursorGo (endDate : Option Int) : List Page → Option String → Nat → List SyncEvent
  | [], _, _ => []
  | pg :: rest, cursor, iter =>
    if pg.lifelogs.isEmpty then
      match cursor with
      | none => [SyncEvent.request iter BATCH_SIZE cursor none]
      | some _ =>
        match pg.nextCursor with
        | none => [SyncEvent.request iter BATCH_SIZE cursor none]
        | some c =>
          SyncEvent.request iter BATCH_SIZE cursor none ::
            cursorGo endDate rest (some c) (iter + 1)
    else if reachedEnd endDate pg.lifelogs then
      [SyncEvent.request iter BATCH_SIZE cursor none]
    else
      SyncEvent.request iter BATCH_SIZE cursor none ::
        (mergeEvents iter pg.lifelogs
          ++ SyncEvent.checkpoint iter none ::
            SyncEvent.wait iter RATE_LIMIT_DELAY ::
              (match pg.nextCursor with
               | none => []
               | some c =>
                 if pg.lifelogs.length < BATCH_SIZE then []
                 else cursorGo endDate rest (some c) (iter + 1)))

def part2CursorRun (pages : List Page) (endDate : Option Int) : List SyncEvent :=
  cursorGo endDate pages none 0

/-- The sync state of the zod-generation exporter in src/export.js: it DOES
hold a cursor. -/
structure SyncStateE where
  lastCursor : Option String
  lastSyncTime : Option Int
deriving DecidableEq, Repr

/-- Cursor loop of the zod-generation exporter (src/export.js lines
326–460): the cursor starts from the persisted `syncState.lastCursor`, and
after each processed batch the state is saved with `lastCursor :=` that
batch's `nextCursor` — each checkpoint records the cursor it persists.  Its
inter-request delay is 12000 ms. -/
def exportV2Go (safeDate : Int) : List Page → Option String → Nat → List SyncEvent
  | [], _, _ => []
  | pg :: rest, cursor, iter =>
    if pg.lifelogs.isEmpty then [SyncEvent.request iter BATCH_SIZE cursor none]
    else if reachedSafe safeDate pg.lifelogs then
      [SyncEvent.request iter BATCH_SIZE cursor none]
    else
      SyncEvent.request iter BATCH_SIZE cursor none ::
        (mergeEvents iter pg.lifelogs
          ++ SyncEvent.checkpoint iter pg.nextCursor ::
            SyncEvent.wait iter 12000 ::
              (match pg.nextCursor with
               | none => []
               | some c =>
                 if pg.lifelogs.length < BATCH_SIZE then []
                 else exportV2Go safeDate rest (some c) (iter + 1)))

def exportV2Run (pages : List Page) (st : SyncStateE) (safeDate : Int) :
    List SyncEvent :=
  exportV2Go safeDate pages st.lastCursor 0

/-! ## Claim C8: merge-to-disk precedes checkpoint-persist -/

theorem mem_mergeEvents {iter : Nat} {logs : List Lifelog} {e : SyncEvent}
    (he : e ∈ mergeEvents iter logs) : ∃ d n, e = SyncEvent.mergeFile iter d n := by
  rcases List.mem_map.1 he with ⟨d, _, rfl⟩
  exact ⟨d, _, rfl⟩

theorem indexOf_mem_lt_head {E : Type} [DecidableEq E] {a b : E} (P T : List E)
    (ha : a ∈ P) (hb : b ∉ P) :
    (P ++ b :: T).indexOf a < (P ++ b :: T).indexOf b := by
  rw [List.indexOf_append_of_mem ha, List.indexOf_append_of_not_mem hb,
    List.indexOf_cons_self]
  simpa using List.indexOf_lt_length.2 ha

theorem indexOf_append_right_lt {E : Type} [DecidableEq E] {a b : E} (P R : List E)
    (ha : a ∉ P) (hb : b ∉ P) (h : R.indexOf a < R.indexOf b) :
    (P ++ R).indexOf a < (P ++ R).indexOf b := by
  rw [List.indexOf_append_of_not_mem ha, List.indexOf_append_of_not_mem hb]
  exact Nat.add_lt_add_left h _

theorem fullSyncGo_iter_ge (script : Int → List Lifelog) :
    ∀ (fuel : Nat) (day : Int) (consec : Nat) (empt : List Int) (iter : Nat),
    ∀ e ∈ (fullSyncGo script fuel day consec empt iter).1, iter ≤ iterOf e := by
  intro fuel
  induction fuel with
  | zero =>
    intro day consec empt iter e he
    simp [fullSyncGo] at he
  | succ fuel ih =>
    intro day consec empt iter e he
    rw [fullSyncGo] at he
    by_cases hemp : (script day).isEmpty = true
    · rw [if_pos hemp] at he
      by_cases hthr : FULL_SYNC_EMPTY_DAYS_THRESHOLD ≤ consec + 1
      · rw [if_pos hthr] at he
        rcases List.mem_singleton.1 he with rfl
        exact le_rfl
      · rw [if_neg hthr] at he
        rcases List.mem_cons.1 he with rfl | he
        · exact le_rfl
        rcases List.mem_cons.1 he with rfl | he
        · exact le_rfl
        rcases List.mem_cons.1 he with rfl | he
        · exact le_rfl
        · exact le_trans (Nat.le_succ iter) (ih _ _ _ _ e he)
    · rw [if_neg hemp] at he
      rcases List.mem_cons.1 he with rfl | he
      · exact le_rfl
      rcases List.mem_append.1 he with he | he
      · rcases mem_mergeEvents he with ⟨d, n, rfl⟩
        exact le_rfl
      rcases List.mem_cons.1 he with rfl | he
      · exact le_rfl
      rcases List.mem_cons.1 he with rfl | he
      · exact le_rfl
      · exact le_trans (Nat.le_succ iter) (ih _ _ _ _ e he)

theorem cursorGo_nil (endD : Option Int) (cursor : Option String) (iter : Nat) :
    cursorGo endD [] cursor iter = [] := rfl

theorem cursorGo_cons (endD : Option Int) (pg : Page) (rest : List Page)
    (cursor : Option String) (iter : Nat) :
    cursorGo endD (pg :: rest) cursor iter =
      if pg.lifelogs.isEmpty then
        match cursor with
        | none => [SyncEvent.request iter BATCH_SIZE cursor none]
        | some _ =>
          match pg.nextCursor with
          | none => [SyncEvent.request iter BATCH_SIZE cursor none]
          | some c =>
            SyncEvent.request iter BATCH_SIZE cursor none ::
              cursorGo endD rest (some c) (iter + 1)
      else if reachedEnd endD pg.lifelogs then
        [SyncEvent.request iter BATCH_SIZE cursor none]
      else
        SyncEvent.request iter BATCH_SIZE cursor none ::
          (mergeEvents iter pg.lifelogs
            ++ SyncEvent.checkpoint iter none ::
              SyncEvent.wait iter RATE_LIMIT_DELAY ::
                (match pg.nextCursor with
                 | none => []
                 | some c =>
                   if pg.lifelogs.length < BATCH_SIZE then []
                   else cursorGo endD rest (some c) (iter + 1))) := rfl

theorem cursorGo_iter_ge (endD : Option Int) :
    ∀ (pages : List Page) (cursor : Option String) (iter : Nat),
    ∀ e ∈ cursorGo endD pages cursor iter, iter ≤ iterOf e := by
  intro pages
  induction pages with
  | nil =>
    intro cursor iter e he
    simp [cursorGo_nil] at he
  | cons pg rest ih =>
    intro cursor iter e he
    rw [cursorGo_cons] at he
    by_cases hemp : pg.lifelogs.isEmpty = true
    · rw [if_pos hemp] at he
      match cursor with
      | none =>
        rcases List.mem_singleton.1 he with rfl
        exact le_rfl
      | some c0 =>
        revert he
        cases hc : pg.nextCursor with
        | none =>
          intro he
          rcases List.mem_singleton.1 he with rfl
          exact le_rfl
        | some c =>
          intro he
          rcases List.mem_cons.1 he with rfl | he
          · exact le_rfl
          · exact le_trans (Nat.le_succ iter) (ih _ _ e he)
    · rw [if_neg hemp] at he
      by_cases hend : reachedEnd endD pg.lifelogs = true
      · rw [if_pos hend] at he
        rcases List.mem_singleton.1 he with rfl
        exact le_rfl
      · rw [if_neg hend] at he
        rcases List.mem_cons.1 he with rfl | he
        · exact le_rfl
        rcases List.mem_append.1 he with he | he
        · rcases mem_mergeEvents he with ⟨d, n, rfl⟩
          exact le_rfl
        rcases List.mem_cons.1 he with rfl | he
        · exact le_rfl
        rcases List.mem_cons.1 he with rfl | he
        · exact le_rfl
        · revert he
          cases hc : pg.nextCursor with
          | none => intro he; simp at he
          | some c =>
            by_cases hshort : pg.lifelogs.length < BATCH_SIZE
            · intro he
              simp [hshort] at he
            · intro he
              simp only [hshort, if_false] at he
              exact le_trans (Nat.le_succ iter) (ih _ _ e he)

theorem fullSyncGo_order (script : Int → List Lifelog) :
    ∀ (fuel : Nat) (day : Int) (consec : Nat) (empt : List Int) (iter : Nat)
      (i : Nat) (d : Int) (m : Nat),
    SyncEvent.mergeFile i d m ∈ (fullSyncGo script fuel day consec empt iter).1 →
    (fullSyncGo script fuel day consec empt iter).1.indexOf (SyncEvent.mergeFile i d m)
      < (fullSyncGo script fuel day consec empt iter).1.indexOf
          (SyncEvent.checkpoint i none) := by
  intro fuel
  induction fuel with
  | zero =>
    intro day consec empt iter i d m he
    simp [fullSyncGo] at he
  | succ fuel ih =>
    intro day consec empt iter i d m he
    rw [fullSyncGo] at he ⊢
    by_cases hemp : (script day).isEmpty = true
    · rw [if_pos hemp] at he ⊢
      by_cases hthr : FULL_SYNC_EMPTY_DAYS_THRESHOLD ≤ consec + 1
      · rw [if_pos hthr] at he
        simp at he
      · rw [if_neg hthr] at he ⊢
        have heR : SyncEvent.mergeFile i d m ∈
            (fullSyncGo script fuel (day - 1) (consec + 1) empt (iter + 1)).1 := by
          rcases List.mem_cons.1 he with h | he
          · exact absurd h (by simp)
          rcases List.mem_cons.1 he with h | he
          · exact absurd h (by simp)
          rcases List.mem_cons.1 he with h | he
          · exact absurd h (by simp)
          · exact he
        have hi : iter + 1 ≤ i := by
          have := fullSyncGo_iter_ge script fuel (day - 1) (consec + 1) empt (iter + 1)
            _ heR
          simpa [iterOf] using this
        show ([SyncEvent.request iter BATCH_SIZE none (some day),
            SyncEvent.checkpoint iter none, SyncEvent.wait iter RATE_LIMIT_DELAY]
              ++ (fullSyncGo script fuel (day - 1) (consec + 1) empt (iter + 1)).1).indexOf
            (SyncEvent.mergeFile i d m) < _
        refine indexOf_append_right_lt _ _ ?_ ?_ (ih _ _ _ _ i d m heR)
        · intro hmem
          simp at hmem
        · intro hmem
          simp at hmem
          omega
    · rw [if_neg hemp] at he ⊢
      by_cases hiq : i = iter
      · subst hiq
        have haP : SyncEvent.mergeFile i d m ∈
            SyncEvent.request i BATCH_SIZE none (some day) :: mergeEvents i (script day) := by
          rcases List.mem_cons.1 he with h | he
          · exact absurd h (by simp)
          rcases List.mem_append.1 he with h | he
          · exact List.mem_cons_of_mem _ h
          exfalso
          rcases List.mem_cons.1 he with h | he
          · simp at h
          rcases List.mem_cons.1 he with h | he
          · simp at h
          · have := fullSyncGo_iter_ge script fuel (day - 1) 0
              (pruneEmptyDays empt (script day)) (i + 1) _ he
            simp [iterOf] at this
        show ((SyncEvent.request i BATCH_SIZE none (some day) :: mergeEvents i (script day))
            ++ SyncEvent.checkpoint i none :: SyncEvent.wait i RATE_LIMIT_DELAY ::
              (fullSyncGo script fuel (day - 1) 0
                (pruneEmptyDays empt (script day)) (i + 1)).1).indexOf
            (SyncEvent.mergeFile i d m) < _
        refine indexOf_mem_lt_head _ _ haP ?_
        intro hmem
        rcases List.mem_cons.1 hmem with h | h
        · simp at h
        · rcases mem_mergeEvents h with ⟨d', n', heq⟩
          simp at heq
      · have haR : SyncEvent.mergeFile i d m ∈
            (fullSyncGo script fuel (day - 1) 0
              (pruneEmptyDays empt (script day)) (iter + 1)).1 := by
          rcases List.mem_cons.1 he with h | he
          · exact absurd h (by simp)
          rcases List.mem_append.1 he with h | he
          · exfalso
            rcases mem_mergeEvents h with ⟨d', n', heq⟩
            simp at heq
            exact hiq heq.1
          rcases List.mem_cons.1 he with h | he
          · exact absurd h (by simp)
          rcases List.mem_cons.1 he with h | he
          · exact absurd h (by simp)
          · exact he
        have hshape : SyncEvent.request iter BATCH_SIZE none (some day) ::
            (mergeEvents iter (script day)
              ++ SyncEvent.checkpoint iter none :: SyncEvent.wait iter RATE_LIMIT_DELAY ::
                (fullSyncGo script fuel (day - 1) 0
                  (pruneEmptyDays empt (script day)) (iter + 1)).1)
            = (SyncEvent.request iter BATCH_SIZE none (some day) ::
                mergeEvents iter (script day)
                ++ [SyncEvent.checkpoint iter none,
                    SyncEvent.wait iter RATE_LIMIT_DELAY])
              ++ (fullSyncGo script fuel (day - 1) 0
                  (pruneEmptyDays empt (script day)) (iter + 1)).1 := by
          simp
        rw [hshape]
        refine indexOf_append_right_lt _ _ ?_ ?_ (ih _ _ _ _ i d m haR)
        · intro hmem
          rcases List.mem_cons.1 hmem with h | h
          · simp at h
          rcases List.mem_append.1 h with h | h
          · rcases mem_mergeEvents h with ⟨d', n', heq⟩
            simp at heq
            exact hiq heq.1
          · simp at h
        · intro hmem
          rcases List.mem_cons.1 hmem with h | h
          · simp at h
          rcases List.mem_append.1 h with h | h
          · rcases mem_mergeEvents h with ⟨d', n', heq⟩
            simp at heq
          · simp at h
            exact hiq h

theorem mem_cursorTail {endD : Option Int} {rest : List Page} {pg : Page} {iter : Nat}
    {e : SyncEvent}
    (he : e ∈ (match pg.nextCursor with
               | none => ([] : List SyncEvent)
               | some c =>
                 if pg.lifelogs.length < BATCH_SIZE then []
                 else cursorGo endD rest (some c) (iter + 1))) :
    ∃ c, pg.nextCursor = some c ∧ ¬ pg.lifelogs.length < BATCH_SIZE ∧
      e ∈ cursorGo endD rest (some c) (iter + 1) := by
  revert he
  cases hc : pg.nextCursor with
  | none => intro he; simp at he
  | some c =>
    by_cases hshort : pg.lifelogs.length < BATCH_SIZE
    · intro he
      simp [hshort] at he
    · intro he
      simp only [hshort, if_false] at he
      exact ⟨c, rfl, hshort, he⟩

theorem cursorGo_order (endD : Option Int) :
    ∀ (pages : List Page) (cursor : Option String) (iter : Nat)
      (i : Nat) (d : Int) (m : Nat),
    SyncEvent.mergeFile i d m ∈ cursorGo endD pages cursor iter →
    (cursorGo endD pages cursor iter).indexOf (SyncEvent.mergeFile i d m)
      < (cursorGo endD pages cursor iter).indexOf (SyncEvent.checkpoint i none) := by
  intro pages
  induction pages with
  | nil =>
    intro cursor iter i d m he
    simp [cursorGo_nil] at he
  | cons pg rest ih =>
    intro cursor iter i d m he
    rw [cursorGo_cons] at he ⊢
    by_cases hemp : pg.lifelogs.isEmpty = true
    · rw [if_pos hemp] at he ⊢
      match cursor with
      | none => simp at he
      | some c0 =>
        revert he
        cases hc : pg.nextCursor with
        | none => intro he; simp at he
        | some c =>
          intro he
          have heR : SyncEvent.mergeFile i d m ∈ cursorGo endD rest (some c) (iter + 1) := by
            rcases List.mem_cons.1 he with h | h
            · exact absurd h (by simp)
            · exact h
          show (([SyncEvent.request iter BATCH_SIZE (some c0) none])
              ++ cursorGo endD rest (some c) (iter + 1)).indexOf
                (SyncEvent.mergeFile i d m)
            < (([SyncEvent.request iter BATCH_SIZE (some c0) none])
              ++ cursorGo endD rest (some c) (iter + 1)).indexOf
                (SyncEvent.checkpoint i none)
          refine indexOf_append_right_lt _ _ ?_ ?_ (ih _ _ i d m heR)
          · intro hmem
            simp at hmem
          · intro hmem
            simp at hmem
    · rw [if_neg hemp] at he ⊢
      by_cases hend : reachedEnd endD pg.lifelogs = true
      · rw [if_pos hend] at he
        simp at he
      · rw [if_neg hend] at he ⊢
        by_cases hiq : i = iter
        · subst hiq
          have haP : SyncEvent.mergeFile i d m ∈
              SyncEvent.request i BATCH_SIZE cursor none :: mergeEvents i pg.lifelogs := by
            rcases List.mem_cons.1 he with h | he
            · exact absurd h (by simp)
            rcases List.mem_append.1 he with h | he
            · exact List.mem_cons_of_mem _ h
            exfalso
            rcases List.mem_cons.1 he with h | he
            · simp at h
            rcases List.mem_cons.1 he with h | he
            · simp at h
            · rcases mem_cursorTail he with ⟨c, hc, hshort, heR⟩
              have := cursorGo_iter_ge endD rest (some c) (i + 1) _ heR
              simp [iterOf] at this
          show ((SyncEvent.request i BATCH_SIZE cursor none :: mergeEvents i pg.lifelogs)
              ++ SyncEvent.checkpoint i none :: SyncEvent.wait i RATE_LIMIT_DELAY ::
                (match pg.nextCursor with
                 | none => ([] : List SyncEvent)
                 | some c =>
                   if pg.lifelogs.length < BATCH_SIZE then []
                   else cursorGo endD rest (some c) (i + 1))).indexOf
                (SyncEvent.mergeFile i d m)
            < ((SyncEvent.request i BATCH_SIZE cursor none :: mergeEvents i pg.lifelogs)
              ++ SyncEvent.checkpoint i none :: SyncEvent.wait i RATE_LIMIT_DELAY ::
                (match pg.nextCursor with
                 | none => ([] : List SyncEvent)
                 | some c =>
                   if pg.lifelogs.length < BATCH_SIZE then []
                   else cursorGo endD rest (some c) (i + 1))).indexOf
                (SyncEvent.checkpoint i none)
          refine indexOf_mem_lt_head _ _ haP ?_
          intro hmem
          rcases List.mem_cons.1 hmem with h | h
          · simp at h
          · rcases mem_mergeEvents h with ⟨d', n', heq⟩
            simp at heq
        · have haT : SyncEvent.mergeFile i d m ∈ (match pg.nextCursor with
              | none => ([] : List SyncEvent)
              | some c =>
                if pg.lifelogs.length < BATCH_SIZE then []
                else cursorGo endD rest (some c) (iter + 1)) := by
            rcases List.mem_cons.1 he with h | he
            · exact absurd h (by simp)
            rcases List.mem_append.1 he with h | he
            · exfalso
              rcases mem_mergeEvents h with ⟨d', n', heq⟩
              simp at heq
              exact hiq heq.1
            rcases List.mem_cons.1 he with h | he
            · exact absurd h (by simp)
            rcases List.mem_cons.1 he with h | he
            · exact absurd h (by simp)
            · exact he
          rcases mem_cursorTail haT with ⟨c, hc, hshort, heR⟩
          rw [hc]
          simp only [hshort, if_false]
          have hshape : SyncEvent.request iter BATCH_SIZE cursor none ::
              (mergeEvents iter pg.lifelogs
                ++ SyncEvent.checkpoint iter none ::
                  SyncEvent.wait iter RATE_LIMIT_DELAY ::
                    cursorGo endD rest (some c) (iter + 1))
              = (SyncEvent.request iter BATCH_SIZE cursor none ::
                  mergeEvents iter pg.lifelogs
                  ++ [SyncEvent.checkpoint iter none,
                      SyncEvent.wait iter RATE_LIMIT_DELAY])
                ++ cursorGo endD rest (some c) (iter + 1) := by
            simp
          rw [hshape]
          refine indexOf_append_right_lt _ _ ?_ ?_ (ih _ _ i d m heR)
          · intro hmem
            rcases List.mem_cons.1 hmem with h | h
            · simp at h
            rcases List.mem_append.1 h with h | h
            · rcases mem_mergeEvents h with ⟨d', n', heq⟩
              simp at heq
              exact hiq heq.1
            · simp at h
          · intro hmem
            rcases List.mem_cons.1 hmem with h | h
            · simp at h
            rcases List.mem_append.1 h with h | h
            · rcases mem_mergeEvents h with ⟨d', n', heq⟩
              simp at heq
            · simp at h
              exact hiq h

/-- **C8.** In both part_002 sync loops, every merge-to-disk event of an
iteration occurs strictly before that iteration's checkpoint event in the
run's trace: a crash at any point can lose at most the checkpoint of a batch
whose files were already written, never the reverse. -/
theorem c8_merge_precedes_checkpoint :
    (∀ (script : Int → List Lifelog) (today endDate : Int) (empt : List Int)
        (i : Nat) (d : Int) (m : Nat),
      SyncEvent.mergeFile i d m ∈ (fullSyncRun script today endDate empt).1 →
      (fullSyncRun script today endDate empt).1.indexOf (SyncEvent.mergeFile i d m)
        < (fullSyncRun script today endDate empt).1.indexOf
            (SyncEvent.checkpoint i none)) ∧
    (∀ (pages : List Page) (endDate : Option Int) (i : Nat) (d : Int) (m : Nat),
      SyncEvent.mergeFile i d m ∈ part2CursorRun pages endDate →
      (part2CursorRun pages endDate).indexOf (SyncEvent.mergeFile i d m)
        < (part2CursorRun pages endDate).indexOf (SyncEvent.checkpoint i none)) :=
  ⟨fun script _ _ _ i d m he => fullSyncGo_order script _ _ _ _ _ i d m he,
    fun pages endDate i d m he => cursorGo_order endDate pages none 0 i d m he⟩

def c8rec : Lifelog := ⟨"c8", 864000000000, 864000000001, none⟩

def c8script : Int → List Lifelog := fun d => if d = 10000 then [c8rec] else []

theorem c8_witness :
    SyncEvent.mergeFile 0 10000 1 ∈ (fullSyncRun c8script 10000 10000 []).1 ∧
    (fullSyncRun c8script 10000 10000 []).1.indexOf (SyncEvent.mergeFile 0 10000 1)
      < (fullSyncRun c8script 10000 10000 []).1.indexOf (SyncEvent.checkpoint 0 none) :=
  ⟨by decide,
    c8_merge_precedes_checkpoint.1 c8script 10000 10000 [] 0 10000 1 (by decide)⟩

/-! ## Claim C7: empty-day tracking -/

theorem fullSyncGo_emptyDays_subset (script : Int → List Lifelog) :
    ∀ (fuel : Nat) (day : Int) (consec : Nat) (empt : List Int) (iter : Nat),
    (fullSyncGo script fuel day consec empt iter).2 ⊆ empt := by
  intro fuel
  induction fuel with
  | zero =>
    intro day consec empt iter d hd
    exact hd
  | succ fuel ih =>
    intro day consec empt iter d hd
    rw [fullSyncGo] at hd
    by_cases hemp : (script day).isEmpty = true
    · rw [if_pos hemp] at hd
      by_cases hthr : FULL_SYNC_EMPTY_DAYS_THRESHOLD ≤ consec + 1
      · rw [if_pos hthr] at hd
        exact hd
      · rw [if_neg hthr] at hd
        exact ih _ _ _ _ hd
    · rw [if_neg hemp] at hd
      have := ih _ _ _ _ hd
      exact (List.mem_filter.1 this).1

/-- Record on 2024-03-01 (UTC day 19783, startTime 1709251200000 ms). -/
def c7rec : Lifelog := ⟨"r1", 1709251200000, 1709251200001, none⟩

def c7script : Int → List Lifelog := fun d => if d = 19783 then [c7rec] else []

/-- **C7 (code bug).** The full-sync loop never records an empty date in
`syncState.emptyDays`: across every run the final `emptyDays` is a subset of
the initial one (the set can only shrink, since `processLifelogs` only ever
deletes dates and no code path inserts one).  Concretely, a run over
2024-03-02 (empty) and 2024-03-01 (one record) ends with `emptyDays = []`:
day 19784, which returned zero records, is absent — though the claim says it
must be recorded.  The claim's other half does hold: day 19783, which was in
`emptyDays` and received data, is removed. -/
theorem c7_empty_days_never_recorded :
    (∀ (script : Int → List Lifelog) (today endDate : Int) (empt : List Int),
      (fullSyncRun script today endDate empt).2 ⊆ empt) ∧
    ((fullSyncRun c7script 19784 19783 []).2 = [] ∧
      19784 ∉ (fullSyncRun c7script 19784 19783 []).2) ∧
    (fullSyncRun c7script 19784 19783 [19783]).2 = [] := by
  refine ⟨fun script today endDate empt =>
    fullSyncGo_emptyDays_subset script _ _ _ _ _, ⟨?_, ?_⟩, ?_⟩ <;> decide

/-! ## Claim C9: checkpoint/cursor resume -/

theorem exportV2Go_nil (safeDate : Int) (cursor : Option String) (iter : Nat) :
    exportV2Go safeDate [] cursor iter = [] := rfl

theorem exportV2Go_cons (safeDate : Int) (pg : Page) (rest : List Page)
    (cursor : Option String) (iter : Nat) :
    exportV2Go safeDate (pg :: rest) cursor iter =
      if pg.lifelogs.isEmpty then [SyncEvent.request iter BATCH_SIZE cursor none]
      else if reachedSafe safeDate pg.lifelogs then
        [SyncEvent.request iter BATCH_SIZE cursor none]
      else
        SyncEvent.request iter BATCH_SIZE cursor none ::
          (mergeEvents iter pg.lifelogs
            ++ SyncEvent.checkpoint iter pg.nextCursor ::
              SyncEvent.wait iter 12000 ::
                (match pg.nextCursor with
                 | none => []
                 | some c =>
                   if pg.lifelogs.length < BATCH_SIZE then []
                   else exportV2Go safeDate rest (some c) (iter + 1))) := rfl

theorem mem_exportV2Tail {safeDate : Int} {rest : List Page} {pg : Page} {iter : Nat}
    {e : SyncEvent}
    (he : e ∈ (match pg.nextCursor with
               | none => ([] : List SyncEvent)
               | some c =>
                 if pg.lifelogs.length < BATCH_SIZE then []
                 else exportV2Go safeDate rest (some c) (iter + 1))) :
    ∃ c, pg.nextCursor = some c ∧ ¬ pg.lifelogs.length < BATCH_SIZE ∧
      e ∈ exportV2Go safeDate rest (some c) (iter + 1) := by
  revert he
  cases hc : pg.nextCursor with
  | none => intro he; simp at he
  | some c =>
    by_cases hshort : pg.lifelogs.length < BATCH_SIZE
    · intro he
      simp [hshort] at he
    · intro he
      simp only [hshort, if_false] at he
      exact ⟨c, rfl, hshort, he⟩

theorem exportV2Go_iter_ge (safeDate : Int) :
    ∀ (pages : List Page) (cursor : Option String) (iter : Nat),
    ∀ e ∈ exportV2Go safeDate pages cursor iter, iter ≤ iterOf e := by
  intro pages
  induction pages with
  | nil =>
    intro cursor iter e he
    simp [exportV2Go_nil] at he
  | cons pg rest ih =>
    intro cursor iter e he
    rw [exportV2Go_cons] at he
    by_cases hemp : pg.lifelogs.isEmpty = true
    · rw [if_pos hemp] at he
      rcases List.mem_singleton.1 he with rfl
      exact le_rfl
    · rw [if_neg hemp] at he
      by_cases hsafe : reachedSafe safeDate pg.lifelogs = true
      · rw [if_pos hsafe] at he
        rcases List.mem_singleton.1 he with rfl
        exact le_rfl
      · rw [if_neg hsafe] at he
        rcases List.mem_cons.1 he with rfl | he
        · exact le_rfl
        rcases List.mem_append.1 he with he | he
        · rcases mem_mergeEvents he with ⟨d, n, rfl⟩
          exact le_rfl
        rcases List.mem_cons.1 he with rfl | he
        · exact le_rfl
        rcases List.mem_cons.1 he with rfl | he
        · exact le_rfl
        · rcases mem_exportV2Tail he with ⟨c, _, _, heR⟩
          exact le_trans (Nat.le_succ iter) (ih _ _ e heR)

/-- In the zod-generation exporter, every persisted cursor is exactly the
`nextCursor` of the page processed in that iteration. -/
theorem exportV2Go_checkpoint_cursor (safeDate : Int) :
    ∀ (pages : List Page) (cursor : Option String) (iter i : Nat) (c : Option String),
    SyncEvent.checkpoint i c ∈ exportV2Go safeDate pages cursor iter →
    ∃ pg, pages.get? (i - iter) = some pg ∧ pg.nextCursor = c := by
  intro pages
  induction pages with
  | nil =>
    intro cursor iter i c he
    simp [exportV2Go_nil] at he
  | cons pg rest ih =>
    intro cursor iter i c he
    rw [exportV2Go_cons] at he
    by_cases hemp : pg.lifelogs.isEmpty = true
    · rw [if_pos hemp] at he
      simp at he
    · rw [if_neg hemp] at he
      by_cases hsafe : reachedSafe safeDate pg.lifelogs = true
      · rw [if_pos hsafe] at he
        simp at he
      · rw [if_neg hsafe] at he
        rcases List.mem_cons.1 he with h | he
        · simp at h
        rcases List.mem_append.1 he with h | he
        · exfalso
          rcases mem_mergeEvents h with ⟨d', n', heq⟩
          simp at heq
        rcases List.mem_cons.1 he with h | he
        · have h1 : i = iter ∧ c = pg.nextCursor := by
            simpa using h
          rcases h1 with ⟨rfl, rfl⟩
          refine ⟨pg, ?_, rfl⟩
          simp
        rcases List.mem_cons.1 he with h | he
        · simp at h
        · rcases mem_exportV2Tail he with ⟨c', hc', hshort, heR⟩
          rcases ih _ _ i c heR with ⟨pg', hget, hcur⟩
          have hge : iter + 1 ≤ i := by
            have := exportV2Go_iter_ge safeDate rest (some c') (iter + 1) _ heR
            simpa [iterOf] using this
          refine ⟨pg', ?_, hcur⟩
          have hsub : i - iter = (i - (iter + 1)) + 1 := by omega
          rw [hsub]
          simpa using hget

/-- part_002's cursor loop never persists a cursor: the saved sync state has
no such field, so every checkpoint records `none`. -/
theorem cursorGo_checkpoint_none (endD : Option Int) :
    ∀ (pages : List Page) (cursor : Option String) (iter i : Nat) (c : Option String),
    SyncEvent.checkpoint i c ∈ cursorGo endD pages cursor iter → c = none := by
  intro pages
  induction pages with
  | nil =>
    intro cursor iter i c he
    simp [cursorGo_nil] at he
  | cons pg rest ih =>
    intro cursor iter i c he
    rw [cursorGo_cons] at he
    by_cases hemp : pg.lifelogs.isEmpty = true
    · rw [if_pos hemp] at he
      match cursor with
      | none => simp at he
      | some c0 =>
        revert he
        cases hc : pg.nextCursor with
        | none => intro he; simp at he
        | some c1 =>
          intro he
          rcases List.mem_cons.1 he with h | he
          · simp at h
          · exact ih _ _ i c he
    · rw [if_neg hemp] at he
      by_cases hend : reachedEnd endD pg.lifelogs = true
      · rw [if_pos hend] at he
        simp at he
      · rw [if_neg hend] at he
        rcases List.mem_cons.1 he with h | he
        · simp at h
        rcases List.mem_append.1 he with h | he
        · exfalso
          rcases mem_mergeEvents h with ⟨d', n', heq⟩
          simp at heq
        rcases List.mem_cons.1 he with h | he
        · have h1 : i = iter ∧ c = none := by simpa using h
          exact h1.2
        rcases List.mem_cons.1 he with h | he
        · simp at h
        · rcases mem_cursorTail he with ⟨c', _, _, heR⟩
          exact ih _ _ i c heR

theorem exportV2Run_starts_at_lastCursor (pg : Page) (rest : List Page)
    (st : SyncStateE) (safe : Int) :
    (exportV2Run (pg :: rest) st safe).head?
      = some (SyncEvent.request 0 BATCH_SIZE st.lastCursor none) := by
  show (exportV2Go safe (pg :: rest) st.lastCursor 0).head? = _
  rw [exportV2Go_cons]
  by_cases hemp : pg.lifelogs.isEmpty = true
  · rw [if_pos hemp]
    rfl
  · rw [if_neg hemp]
    by_cases hsafe : reachedSafe safe pg.lifelogs = true
    · rw [if_pos hsafe]
      rfl
    · rw [if_neg hsafe]
      rfl

/-- The page a previous part_002 cursor walk was on when it stopped: it had
returned `nextCursor = "c0"`. -/
def c9prevPage : Page := ⟨[⟨"q", 864000000000, 864000000001, none⟩], some "c0"⟩

/-- **C9, counterexample.** part_002's cursor mode does not resume from a
persisted `lastCursor`: the next run's first request carries no cursor (not
the previously returned `"c0"`), and no checkpoint of the run ever persists
one — part_002's sync state has no cursor field at all. -/
theorem c9_counterexample :
    (part2CursorRun [c9prevPage] none).head?
        = some (SyncEvent.request 0 BATCH_SIZE none none) ∧
    (part2CursorRun [c9prevPage] none).head?
        ≠ some (SyncEvent.request 0 BATCH_SIZE (some "c0") none) ∧
    SyncEvent.checkpoint 0 (some "c0") ∉ part2CursorRun [c9prevPage] none := by
  refine ⟨?_, ?_, ?_⟩ <;> decide

def isRequest : SyncEvent → Bool
  | .request _ _ _ _ => true
  | _ => false

def c9rec (j : Nat) : Lifelog := ⟨"p", 864000000000 + j, 864000000002, none⟩

/-- A full page (10 records on day 10000) whose `nextCursor` is `"c1"`. -/
def c9P1 : Page := ⟨(List.range 10).map c9rec, some "c1"⟩

/-- The following short page (one record, day 9998). -/
def c9P2 : Page := ⟨[⟨"q2", 863900000000, 863900000001, none⟩], none⟩

/-- **C9 (amended).** In the zod-generation structured exporter
(src/export.js), a run's first request uses the persisted `lastCursor`, and
every checkpoint persists exactly the `nextCursor` of the batch it follows —
so a run resumed from the checkpoint preceding a crash re-fetches at most the
one merged-but-uncheckpointed page.  The markdown exporter part_002, by
contrast, never persists a cursor.  Concretely: resuming from
`lastCursor = "c0"` after a crash that had merged the page at `"c0"` but not
checkpointed it, the new run issues exactly the requests at `"c0"` (the one
re-fetched page) and `"c1"` (new). -/
theorem c9_cursor_resume :
    (∀ (pg : Page) (rest : List Page) (st : SyncStateE) (safe : Int),
      (exportV2Run (pg :: rest) st safe).head?
        = some (SyncEvent.request 0 BATCH_SIZE st.lastCursor none)) ∧
    (∀ (pages : List Page) (st : SyncStateE) (safe : Int) (i : Nat) (c : Option String),
      SyncEvent.checkpoint i c ∈ exportV2Run pages st safe →
      ∃ pg, pages.get? i = some pg ∧ pg.nextCursor = c) ∧
    (∀ (pages : List Page) (endD : Option Int) (i : Nat) (c : Option String),
      SyncEvent.checkpoint i c ∈ part2CursorRun pages endD → c = none) ∧
    ((exportV2Run [c9P1, c9P2] ⟨some "c0", none⟩ 10001).filter isRequest
      = [SyncEvent.request 0 BATCH_SIZE (some "c0") none,
          SyncEvent.request 1 BATCH_SIZE (some "c1") none]) := by
  refine ⟨exportV2Run_starts_at_lastCursor, ?_, ?_, by decide⟩
  · intro pages st safe i c he
    have := exportV2Go_checkpoint_cursor safe pages st.lastCursor 0 i c he
    simpa using this
  · intro pages endD i c he
    exact cursorGo_checkpoint_none endD pages none 0 i c he

theorem c9_witness :
    SyncEvent.checkpoint 0 (some "c1")
        ∈ exportV2Run [c9P1, c9P2] ⟨some "c0", none⟩ 10001 ∧
    ∃ pg, ([c9P1, c9P2] : List Page).get? 0 = some pg ∧ pg.nextCursor = some "c1" :=
  ⟨by decide,
    c9_cursor_resume.2.1 [c9P1, c9P2] ⟨some "c0", none⟩ 10001 0 (some "c1") (by decide)⟩

/-! ## Claim C10: full-resync fetches one page per date -/

theorem seenDates_of_const {c : Int} :
    ∀ (I seen : List Int), (∀ x ∈ I, x = c) → c ∈ seen → seenDates seen I = [] := by
  intro I
  induction I with
  | nil => intro seen _ _; rfl
  | cons x xs ih =>
    intro seen hall hc
    have hx : x = c := hall x (List.mem_cons_self x xs)
    rw [seenDates, if_pos (hx ▸ hc)]
    exact ih seen (fun y hy => hall y (List.mem_cons_of_mem x hy)) hc

/-- A nonempty batch whose records all fall on one date groups to exactly
that date. -/
theorem datesOf_const {day : Int} {logs : List Lifelog} (hne : logs ≠ [])
    (hall : ∀ l ∈ logs, dayOf l.startTime = day) : datesOf logs = [day] := by
  unfold datesOf
  cases logs with
  | nil => exact absurd rfl hne
  | cons x xs =>
    rw [List.map_cons, hall x (List.mem_cons_self x xs), seenDates,
      if_neg (by simp)]
    have hz : seenDates [day] (xs.map (fun l => dayOf l.startTime)) = [] := by
      refine seenDates_of_const _ _ ?_ (List.mem_singleton.2 rfl)
      intro y hy
      rcases List.mem_map.1 hy with ⟨l, hl, rfl⟩
      exact hall l (List.mem_cons_of_mem x hl)
    rw [hz]

theorem mergeEvents_const (iter : Nat) {day : Int} {logs : List Lifelog}
    (hne : logs ≠ []) (hall : ∀ l ∈ logs, dayOf l.startTime = day) :
    mergeEvents iter logs = [SyncEvent.mergeFile iter day logs.length] := by
  unfold mergeEvents
  rw [datesOf_const hne hall, List.map_singleton]
  have hfilt : logs.filter (fun l => dayOf l.startTime = day) = logs :=
    List.filter_eq_self.2 (fun l hl => by simpa using hall l hl)
  rw [hfilt]

/-- Total record count merged for one date across a trace. -/
def countFor (d : Int) : List SyncEvent → Nat
  | [] => 0
  | SyncEvent.mergeFile _ d2 n :: rest => (if d2 = d then n else 0) + countFor d rest
  | SyncEvent.request _ _ _ _ :: rest => countFor d rest
  | SyncEvent.checkpoint _ _ :: rest => countFor d rest
  | SyncEvent.wait _ _ :: rest => countFor d rest

theorem countFor_append (d : Int) (A B : List SyncEvent) :
    countFor d (A ++ B) = countFor d A + countFor d B := by
  induction A with
  | nil => simp [countFor]
  | cons e A ih =>
    cases e <;> simp [countFor, ih, Nat.add_assoc]

/-- Shape of every request the full-sync loop issues: limit `BATCH_SIZE`,
no cursor, and the date filter for the iteration's calendar date. -/
theorem fullSyncGo_request_shape (script : Int → List Lifelog) :
    ∀ (fuel : Nat) (day : Int) (consec : Nat) (empt : List Int) (iter : Nat)
      (i lim : Nat) (cur : Option String) (dt : Option Int),
    SyncEvent.request i lim cur dt ∈ (fullSyncGo script fuel day consec empt iter).1 →
    lim = BATCH_SIZE ∧ cur = none ∧ iter ≤ i ∧ dt = some (day - ((i - iter : Nat) : Int)) := by
  intro fuel
  induction fuel with
  | zero =>
    intro day consec empt iter i lim cur dt he
    simp [fullSyncGo] at he
  | succ fuel ih =>
    intro day consec empt iter i lim cur dt he
    rw [fullSyncGo] at he
    by_cases hemp : (script day).isEmpty = true
    · rw [if_pos hemp] at he
      by_cases hthr : FULL_SYNC_EMPTY_DAYS_THRESHOLD ≤ consec + 1
      · rw [if_pos hthr] at he
        have h1 := List.mem_singleton.1 he
        have h2 : i = iter ∧ lim = BATCH_SIZE ∧ cur = none ∧ dt = some day := by
          simpa using h1
        rcases h2 with ⟨rfl, rfl, rfl, rfl⟩
        refine ⟨rfl, rfl, le_rfl, ?_⟩
        simp
      · rw [if_neg hthr] at he
        rcases List.mem_cons.1 he with h | he
        · have h2 : i = iter ∧ lim = BATCH_SIZE ∧ cur = none ∧ dt = some day := by
            simpa using h
          rcases h2 with ⟨rfl, rfl, rfl, rfl⟩
          refine ⟨rfl, rfl, le_rfl, ?_⟩
          simp
        rcases List.mem_cons.1 he with h | he
        · simp at h
        rcases List.mem_cons.1 he with h | he
        · simp at h
        · rcases ih _ _ _ _ i lim cur dt he with ⟨hl, hc, hge, hdt⟩
          refine ⟨hl, hc, le_trans (Nat.le_succ iter) hge, ?_⟩
          rw [hdt]
          congr 1
          have hcast : ((i - (iter + 1) : Nat) : Int) = ((i - iter : Nat) : Int) - 1 := by
            omega
          rw [hcast]
          ring
    · rw [if_neg hemp] at he
      rcases List.mem_cons.1 he with h | he
      · have h2 : i = iter ∧ lim = BATCH_SIZE ∧ cur = none ∧ dt = some day := by
          simpa using h
        rcases h2 with ⟨rfl, rfl, rfl, rfl⟩
        refine ⟨rfl, rfl, le_rfl, ?_⟩
        simp
      rcases List.mem_append.1 he with h | he
      · exfalso
        rcases mem_mergeEvents h with ⟨d', n', heq⟩
        simp at heq
      rcases List.mem_cons.1 he with h | he
      · simp at h
      rcases List.mem_cons.1 he with h | he
      · simp at h
      · rcases ih _ _ _ _ i lim cur dt he with ⟨hl, hc, hge, hdt⟩
        refine ⟨hl, hc, le_trans (Nat.le_succ iter) hge, ?_⟩
        rw [hdt]
        congr 1
        have hcast : ((i - (iter + 1) : Nat) : Int) = ((i - iter : Nat) : Int) - 1 := by
          omega
        rw [hcast]
        ring

/-- Per-date merged-record bound for the full-sync loop, assuming the API
honours the `limit` and the exact-date filter. -/
theorem fullSyncGo_countFor (script : Int → List Lifelog)
    (h1 : ∀ d, (script d).length ≤ BATCH_SIZE)
    (h2 : ∀ d, ∀ l ∈ script d, dayOf l.startTime = d) :
    ∀ (fuel : Nat) (day : Int) (consec : Nat) (empt : List Int) (iter : Nat) (d : Int),
    countFor d (fullSyncGo script fuel day consec empt iter).1 ≤ BATCH_SIZE ∧
      (day < d → countFor d (fullSyncGo script fuel day consec empt iter).1 = 0) := by
  intro fuel
  induction fuel with
  | zero =>
    intro day consec empt iter d
    exact ⟨Nat.zero_le _, fun _ => rfl⟩
  | succ fuel ih =>
    intro day consec empt iter d
    rw [fullSyncGo]
    by_cases hemp : (script day).isEmpty = true
    · rw [if_pos hemp]
      by_cases hthr : FULL_SYNC_EMPTY_DAYS_THRESHOLD ≤ consec + 1
      · rw [if_pos hthr]
        exact ⟨Nat.zero_le _, fun _ => rfl⟩
      · rw [if_neg hthr]
        have hR := ih (day - 1) (consec + 1) empt (iter + 1) d
        refine ⟨?_, ?_⟩
        · show countFor d _ ≤ BATCH_SIZE
          simpa [countFor] using hR.1
        · intro hlt
          show countFor d _ = 0
          simpa [countFor] using hR.2 (by omega)
    · rw [if_neg hemp]
      have hne : script day ≠ [] := by
        intro h
        rw [h] at hemp
        simp at hemp
      have hmerge := mergeEvents_const iter hne (h2 day)
      have hR := ih (day - 1) 0 (pruneEmptyDays empt (script day)) (iter + 1) d
      constructor
      · show countFor d _ ≤ BATCH_SIZE
        rw [hmerge]
        simp only [countFor, countFor_append, List.cons_append, List.nil_append]
        by_cases hd : day = d
        · rw [if_pos hd]
          have hz : countFor d (fullSyncGo script fuel (day - 1) 0
              (pruneEmptyDays empt (script day)) (iter + 1)).1 = 0 :=
            hR.2 (by omega)
          rw [hz]
          simpa using h1 day
        · rw [if_neg hd]
          simpa using hR.1
      · intro hlt
        show countFor d _ = 0
        rw [hmerge]
        simp only [countFor, countFor_append, List.cons_append, List.nil_append]
        rw [if_neg (by omega)]
        have hz : countFor d (fullSyncGo script fuel (day - 1) 0
            (pruneEmptyDays empt (script day)) (iter + 1)).1 = 0 :=
          hR.2 (by omega)
        rw [hz]

/-- **C10.** In full-resync mode the engine issues, per iteration, exactly
one page request with `limit = BATCH_SIZE = 10`, no pagination cursor, and an
exact-date filter `today - i` (a different calendar date each iteration, so
one request per date); consequently — given that the API honours the limit
and the date filter — at most 10 records are fetched and archived per
calendar date per run. -/
theorem c10_one_request_per_date
    (script : Int → List Lifelog) (today endDate : Int) (empt : List Int)
    (h1 : ∀ d, (script d).length ≤ BATCH_SIZE)
    (h2 : ∀ d, ∀ l ∈ script d, dayOf l.startTime = d) :
    (∀ (i lim : Nat) (cur : Option String) (dt : Option Int),
      SyncEvent.request i lim cur dt ∈ (fullSyncRun script today endDate empt).1 →
      lim = BATCH_SIZE ∧ cur = none ∧ dt = some (today - (i : Int))) ∧
    (∀ d : Int, countFor d (fullSyncRun script today endDate empt).1 ≤ BATCH_SIZE) := by
  constructor
  · intro i lim cur dt he
    rcases fullSyncGo_request_shape script _ _ _ _ _ i lim cur dt he with ⟨hl, hc, _, hdt⟩
    refine ⟨hl, hc, ?_⟩
    simpa using hdt
  · intro d
    exact (fullSyncGo_countFor script h1 h2 _ _ _ _ _ d).1

def c10script : Int → List Lifelog :=
  fun d => if d = 10000 then [⟨"w", 864000000000, 864000000001, none⟩] else []

theorem c10_witness :
    (∀ d, (c10script d).length ≤ BATCH_SIZE) ∧
    (∀ d, ∀ l ∈ c10script d, dayOf l.startTime = d) ∧
    ((∀ (i lim : Nat) (cur : Option String) (dt : Option Int),
        SyncEvent.request i lim cur dt ∈ (fullSyncRun c10script 10000 10000 []).1 →
        lim = BATCH_SIZE ∧ cur = none ∧ dt = some (10000 - (i : Int))) ∧
      (∀ d : Int, countFor d (fullSyncRun c10script 10000 10000 []).1 ≤ BATCH_SIZE)) := by
  have hh1 : ∀ d, (c10script d).length ≤ BATCH_SIZE := by
    intro d
    unfold c10script
    split <;> decide
  have hh2 : ∀ d, ∀ l ∈ c10script d, dayOf l.startTime = d := by
    intro d l hl
    unfold c10script at hl
    split at hl
    · rename_i h
      rcases List.mem_singleton.1 hl with rfl
      subst h
      decide
    · simp at hl
  exact ⟨hh1, hh2, c10_one_request_per_date c10script 10000 10000 [] hh1 hh2⟩

end Limitless
